import Mathlib

/-!
Shallow embedding of the Catatomik/Dijkstra TypeScript repository
(`src/main.ts`, `src/utils/Graph.ts`).

Modelling conventions:
* The TS `node` type is `string | number`; every claim is settled over string
  identifiers, so nodes are embedded as `String` (a JS number stringifies into
  the weight key exactly like the corresponding string does).
* JS `Map` preserves insertion order; `set` on an existing key updates the
  value in place, `set` on a fresh key appends.  It is embedded as an
  association list `List (String × α)` with `mget`/`mset`/`mdel`.
* JS `Set` preserves insertion order and is embedded as a duplicate-free list
  with `sadd` (append if absent) and `List.erase` for `delete`.
* JS numbers are embedded as `ℤ`; the value `Infinity` stored in the distance
  map is embedded as the `none` case of `Option ℤ`.  The expression
  `dist.get(v) ?? Infinity` therefore reads the entry and flattens a missing
  entry and an `Infinity` entry into `none` (`effDist`).
  When `weights.get` yields `undefined` (possible because of weight-key
  collisions) the TS computes `alt = min.key + undefined = NaN`, and both
  `alt > O.maxCumulWeight` and `alt < dist` are false, so the neighbor is
  skipped entirely; the embedding returns the state unchanged in that case.
* The `while` loops (`Dijkstra`'s queue loop and `tracePath`'s walk) are
  embedded with explicit fuel; `dijkstraFuel`/the `prev.length + 1` budget are
  proved sufficient where a claim depends on the loop running to completion.
* `FibonacciHeap` is used through `insert`, `decreaseKey`, `extractMinimum`,
  `isEmpty` only; it is embedded as a list of (key, value) pairs where
  `extractMin` removes the first entry holding a minimal key and
  `decreaseKeyQ` rewrites the key of the (unique) entry of a node in place.
  The `QMapping` table (node ↦ `INode | null`) is embedded as a map to
  `Bool`: `true` for a live handle, `false` for `null` (finalized); the JS
  test `vINode != null` is `mget st.QMapping v = some true` (both `undefined`
  and `null` fail it).
-/

/-! ### JS `Map` as an insertion-ordered association list -/

def mget {α : Type} : List (String × α) → String → Option α
  | [], _ => none
  | (k', v) :: t, k => if k' = k then some v else mget t k

def mset {α : Type} : List (String × α) → String → α → List (String × α)
  | [], k, v => [(k, v)]
  | (k', v') :: t, k, v => if k' = k then (k, v) :: t else (k', v') :: mset t k v

def mdel {α : Type} : List (String × α) → String → List (String × α)
  | [], _ => []
  | (k', v') :: t, k => if k' = k then t else (k', v') :: mdel t k

/-! ### JS `Set` as an insertion-ordered duplicate-free list -/

def sadd (s : List String) (x : String) : List String :=
  if x ∈ s then s else s ++ [x]

/-! ### The graph data model (`src/utils/Graph.ts`)

`Graph.adj : Map<N, Set<N>>` and, in `WeightedGraph`,
`weights : Map<weightKey<N>, number>` with `weightKey = \x7b${N}-${N}\x7d`. -/

/-- `Graph.addNode`: `if (!this.adj.has(n)) this.adj.set(n, new Set())`. -/
def adjAddNode (adj : List (String × List String)) (n : String) :
    List (String × List String) :=
  match mget adj n with
  | some _ => adj
  | none => adj ++ [(n, [])]

/-- `Graph.addArc`: `this.addNode(n1); this.addNode(n2); this.adj.get(n1)?.add(n2)`. -/
def adjAddArc (adj : List (String × List String)) (n1 n2 : String) :
    List (String × List String) :=
  let a := adjAddNode (adjAddNode adj n1) n2
  match mget a n1 with
  | some s => mset a n1 (sadd s n2)
  | none => a

/-- `Graph.removeArc`: `this.adj.get(n1)?.delete(n2)`. -/
def adjRemoveArc (adj : List (String × List String)) (n1 n2 : String) :
    List (String × List String) :=
  match mget adj n1 with
  | some s => mset adj n1 (s.erase n2)
  | none => adj

/-- `Graph.arc`: `!!this.adj.get(n1)?.has(n2)`. -/
def aArc (adj : List (String × List String)) (n1 n2 : String) : Bool :=
  match mget adj n1 with
  | some s => s.contains n2
  | none => false

/-- `weightKey<N>`: the template string `\x7b${n1}-${n2}\x7d`. -/
def wkey (n1 n2 : String) : String := n1 ++ "-" ++ n2

structure WeightedGraph where
  adj : List (String × List String)
  weights : List (String × ℤ)
deriving DecidableEq, Repr

def WeightedGraph.empty : WeightedGraph := ⟨[], []⟩

/-- `WeightedGraph.addArc(n1, n2, w = 0)`:
`super.addArc(n1, n2); this.weights.set(\x7b${n1}-${n2}\x7d, w)`. -/
def WeightedGraph.addArc (g : WeightedGraph) (n1 n2 : String) (w : ℤ := 0) :
    WeightedGraph :=
  { adj := adjAddArc g.adj n1 n2, weights := mset g.weights (wkey n1 n2) w }

/-- `WeightedGraph.removeArc(n1, n2)`:
`super.removeArc(n1, n2); this.weights.delete(\x7b${n1}-${n2}\x7d)`. -/
def WeightedGraph.removeArc (g : WeightedGraph) (n1 n2 : String) : WeightedGraph :=
  { adj := adjRemoveArc g.adj n1 n2, weights := mdel g.weights (wkey n1 n2) }

/-- `Graph.addNode` inherited by `WeightedGraph` (weights untouched). -/
def WeightedGraph.addNode (g : WeightedGraph) (n : String) : WeightedGraph :=
  { g with adj := adjAddNode g.adj n }

/-- `WeightedGraph.addEdge(n1, n2, w?)`: `this.addArc(n1, n2, w)` then
`this.addArc(n2, n1, w)`; an omitted `w` hits `addArc`'s default `0`. -/
def WeightedGraph.addEdge (g : WeightedGraph) (n1 n2 : String) (w : Option ℤ) :
    WeightedGraph :=
  (g.addArc n1 n2 (w.getD 0)).addArc n2 n1 (w.getD 0)

/-- `WeightedGraph.removeEdge(n1, n2)`. -/
def WeightedGraph.removeEdge (g : WeightedGraph) (n1 n2 : String) : WeightedGraph :=
  (g.removeArc n1 n2).removeArc n2 n1

/-- `Graph.arc` on a weighted graph. -/
def WeightedGraph.arcB (g : WeightedGraph) (n1 n2 : String) : Bool :=
  aArc g.adj n1 n2

/-- `WeightedGraph.weight(n1, n2)`:
`if (!this.arc(n1, n2)) throw ...; return this.weights.get(\x7b${n1}-${n2}\x7d)!`.
The outer `Option` is `none` when the method throws; the inner `Option` is
`none` when the non-null assertion smuggles `undefined` through. -/
def WeightedGraph.weight (g : WeightedGraph) (n1 n2 : String) : Option (Option ℤ) :=
  if g.arcB n1 n2 then some (mget g.weights (wkey n1 n2)) else none

/-- `Graph.nodes` / the keys of `adj` in insertion order. -/
def WeightedGraph.nodes (g : WeightedGraph) : List String := g.adj.map Prod.fst

/-! ### The shortest-path engine (`src/main.ts`) -/

structure DState where
  dist : List (String × Option ℤ)
  prev : List (String × Option String)
  Q : List (ℤ × String)
  QMapping : List (String × Bool)
deriving DecidableEq, Repr

/-- `dist.get(v) ?? Infinity`, flattened: `none` is `Infinity`. -/
def effDist (dist : List (String × Option ℤ)) (v : String) : Option ℤ :=
  match mget dist v with
  | some d => d
  | none => none

/-- `a < b` where `b` may be `Infinity` (`none`). -/
def qlt (a : ℤ) (b : Option ℤ) : Bool :=
  match b with
  | none => true
  | some q => decide (a < q)

/-- `Q.extractMinimum()`: removes the first entry holding a minimal key. -/
def extractMin : List (ℤ × String) → Option ((ℤ × String) × List (ℤ × String))
  | [] => none
  | e :: rest =>
    match extractMin rest with
    | none => some (e, [])
    | some (m, rest') => if e.1 ≤ m.1 then some (e, rest) else some (m, e :: rest')

/-- `Q.decreaseKey(vINode, alt)`: rewrite the key of `v`'s entry in place. -/
def decreaseKeyQ (Q : List (ℤ × String)) (v : String) (alt : ℤ) : List (ℤ × String) :=
  Q.map fun e => if e.2 = v then (alt, v) else e

/-- One iteration of the inner `for (const v of G.neighborsIterator(min.value) ?? [])`
body, for extracted node `u` with key `k` and neighbor `v`:

    const alt = min.key + G.weight(min.value!, v);
    if (O && alt > O.maxCumulWeight) continue;
    if (alt < (dist.get(v) ?? Infinity)) \x7b
      dist.set(v, alt); prev.set(v, min.value!);
      const vINode = QMapping.get(v);
      if (vINode != null) Q.decreaseKey(vINode, alt);
      else QMapping.set(v, Q.insert(alt, v));
    \x7d

Note `G.weight(u, v)` cannot throw here (`v` is a neighbor of `u`), so it is
the raw `weights.get` lookup; an `undefined` result makes `alt = NaN`, whose
comparisons are all false, i.e. the neighbor is skipped. -/
def relaxNeighbor (O : Option ℤ) (g : WeightedGraph) (u : String) (k : ℤ)
    (st : DState) (v : String) : DState :=
  match mget g.weights (wkey u v) with
  | none => st
  | some w =>
    let alt := k + w
    if (match O with | some m => decide (m < alt) | none => false) then st
    else if qlt alt (effDist st.dist v) then
      { dist := mset st.dist v (some alt)
        prev := mset st.prev v (some u)
        Q :=
          match mget st.QMapping v with
          | some true => decreaseKeyQ st.Q v alt
          | _ => st.Q ++ [(alt, v)]
        QMapping :=
          match mget st.QMapping v with
          | some true => st.QMapping
          | _ => mset st.QMapping v true }
    else st

/-- The `while (!Q.isEmpty())` loop, with fuel.  Each pass extracts the
minimum, marks its handle `null`, breaks when the single target was just
extracted (`t !== undefined && min.value === t`), otherwise relaxes every
out-neighbor and continues. -/
def dijkstraLoop (g : WeightedGraph) (O : Option ℤ) (t : Option String) :
    ℕ → DState → DState
  | 0, st => st
  | fuel + 1, st =>
    match extractMin st.Q with
    | none => st
    | some ((k, u), Q') =>
      let st1 : DState := { st with Q := Q', QMapping := mset st.QMapping u false }
      if t = some u then st1
      else
        let st2 := ((mget g.adj u).getD []).foldl (relaxNeighbor O g u k) st1
        dijkstraLoop g O t fuel st2

/-- The initialization preceding the loop:

    dist.set(s, 0); QMapping.set(s, Q.insert(0, s));
    for (const e of G.nodesIterator) \x7b
      prev.set(e, nullNode);
      if (e != s) dist.set(e, Infinity);
    \x7d -/
def initStep (s : String) (st : DState) (e : String × List String) : DState :=
  { st with
    prev := mset st.prev e.1 none
    dist := if e.1 ≠ s then mset st.dist e.1 none else st.dist }

def initState (g : WeightedGraph) (s : String) : DState :=
  g.adj.foldl (initStep s)
    { dist := [(s, some 0)], prev := [], Q := [(0, s)], QMapping := [(s, true)] }

/-- Fuel provably sufficient for the queue loop on non-negative weights:
one unit per possible insertion (the source plus every member of every
adjacency set) plus one pass to observe the empty queue. -/
def dijkstraFuel (g : WeightedGraph) : ℕ :=
  2 + g.adj.foldr (fun p acc => p.2.length + acc) 0

/-- `tracePath`'s `while (e !== nullNode)` walk, with fuel; `e = none` is
`nullNode`, and `prev.get(e) ?? nullNode` is `(mget prev e).join`. -/
def traceLoop (prev : List (String × Option String)) :
    ℕ → Option String → List String → List String
  | 0, _, path => path
  | _ + 1, none, path => path
  | fuel + 1, some e, path => traceLoop prev fuel (mget prev e).join (e :: path)

/-- `tracePath(prev, target, source?)`.  The guard is
`prev.get(target) !== nullNode || (source && target === source)`: a missing
entry (`undefined`) passes the first test, and a falsy source (the empty
string, or the number 0) kills the second. -/
def tracePath (fuel : ℕ) (prev : List (String × Option String))
    (target : String) (source : Option String) : List String :=
  if (match mget prev target with | some none => false | _ => true)
      || (match source with | some s => decide (s ≠ "") && decide (target = s) | none => false) then
    traceLoop prev fuel (some target) []
  else []

/-- `Dijkstra(G, [s], O?)`: the full search, returning `[dist, prev]`. -/
def DijkstraFull (g : WeightedGraph) (s : String) (O : Option ℤ) :
    List (String × Option ℤ) × List (String × Option String) :=
  let st := dijkstraLoop g O none (dijkstraFuel g) (initState g s)
  (st.dist, st.prev)

/-- `Dijkstra(G, [s, t], O?)`: the single-target search, returning
`tracePath(prev, t, s)`. -/
def DijkstraPath (g : WeightedGraph) (s t : String) (O : Option ℤ) : List String :=
  let st := dijkstraLoop g O (some t) (dijkstraFuel g) (initState g s)
  tracePath (st.prev.length + 1) st.prev t (some s)

/-! ### Spec-side notions used to state the claims -/

/-- Reachability along arcs, as the spec's "target reachable from the source". -/
inductive Reach (g : WeightedGraph) (s : String) : String → Prop where
  | refl : Reach g s s
  | step {u v : String} : Reach g s u → g.arcB u v = true → Reach g s v

/-- The sum of the stored arc weights along a path (`none` if some
consecutive pair has no stored weight); the empty and singleton paths sum
to `0`. -/
def pathWeight (g : WeightedGraph) : List String → Option ℤ
  | [] => some 0
  | [_] => some 0
  | a :: b :: rest =>
    match mget g.weights (wkey a b), pathWeight g (b :: rest) with
    | some w, some r => some (w + r)
    | _, _ => none

/-- A node identifier that does not contain the `-` weight-key separator. -/
def cleanId (s : String) : Bool := ! s.data.contains '-'

/-- Graphs reachable from the empty graph by the mutation API, all calls over
identifiers free of the key separator. -/
inductive Built : WeightedGraph → Prop where
  | empty : Built WeightedGraph.empty
  | addNode {g n} : Built g → cleanId n = true → Built (g.addNode n)
  | addArc {g n1 n2 w} : Built g → cleanId n1 = true → cleanId n2 = true →
      Built (g.addArc n1 n2 w)
  | addEdge {g n1 n2 w} : Built g → cleanId n1 = true → cleanId n2 = true →
      Built (g.addEdge n1 n2 w)
  | removeArc {g n1 n2} : Built g → cleanId n1 = true → cleanId n2 = true →
      Built (g.removeArc n1 n2)
  | removeEdge {g n1 n2} : Built g → cleanId n1 = true → cleanId n2 = true →
      Built (g.removeEdge n1 n2)

/-- The concrete scenario graph: arcs A→B(1), B→C(2), A→C(5). -/
def gABC : WeightedGraph :=
  ((WeightedGraph.empty.addArc "A" "B" 1).addArc "B" "C" 2).addArc "A" "C" 5

/-! ### Association-map lemmas -/

theorem mget_mset_self {α : Type} (m : List (String × α)) (k : String) (v : α) :
    mget (mset m k v) k = some v := by
  induction m with
  | nil => simp [mget, mset]
  | cons p t ih =>
    obtain ⟨k₀, v₀⟩ := p
    by_cases h0 : k₀ = k
    · subst h0
      simp [mget, mset]
    · simp [mget, mset, h0, ih]

theorem mget_mset_ne {α : Type} (m : List (String × α)) {k k' : String} (v : α)
    (h : k' ≠ k) : mget (mset m k v) k' = mget m k' := by
  induction m with
  | nil => simp [mget, mset, Ne.symm h]
  | cons p t ih =>
    obtain ⟨k₀, v₀⟩ := p
    by_cases h0 : k₀ = k
    · subst h0
      simp [mget, mset, Ne.symm h]
    · simp [mget, mset, h0, ih]

theorem mget_mem {α : Type} {m : List (String × α)} {k : String} {v : α}
    (h : mget m k = some v) : (k, v) ∈ m := by
  induction m with
  | nil => simp [mget] at h
  | cons p t ih =>
    obtain ⟨k₀, v₀⟩ := p
    rw [mget] at h
    by_cases h0 : k₀ = k
    · subst h0
      rw [if_pos rfl] at h
      injection h with hv
      subst hv
      exact List.mem_cons_self ..
    · rw [if_neg h0] at h
      exact List.mem_cons_of_mem _ (ih h)

theorem mget_isSome_mem_keys {α : Type} {m : List (String × α)} {k : String}
    (h : (mget m k).isSome) : k ∈ m.map Prod.fst := by
  obtain ⟨v, hv⟩ := Option.isSome_iff_exists.mp h
  exact List.mem_map.mpr ⟨(k, v), mget_mem hv, rfl⟩

theorem mget_none_of_not_mem_keys {α : Type} {m : List (String × α)} {k : String}
    (h : k ∉ m.map Prod.fst) : mget m k = none := by
  cases hm : mget m k with
  | none => rfl
  | some v => exact absurd (mget_isSome_mem_keys (by simp [hm])) h

theorem mget_mdel_self {α : Type} (m : List (String × α)) (k : String)
    (hnd : (m.map Prod.fst).Nodup) : mget (mdel m k) k = none := by
  induction m with
  | nil => simp [mget, mdel]
  | cons p t ih =>
    obtain ⟨k₀, v₀⟩ := p
    simp only [List.map_cons, List.nodup_cons] at hnd
    by_cases h0 : k₀ = k
    · subst h0
      rw [mdel, if_pos rfl]
      exact mget_none_of_not_mem_keys hnd.1
    · rw [mdel, if_neg h0, mget, if_neg h0]
      exact ih hnd.2

theorem mget_mdel_ne {α : Type} (m : List (String × α)) {k k' : String}
    (h : k' ≠ k) : mget (mdel m k) k' = mget m k' := by
  induction m with
  | nil => simp [mget, mdel]
  | cons p t ih =>
    obtain ⟨k₀, v₀⟩ := p
    by_cases h0 : k₀ = k
    · subst h0
      simp [mget, mdel, Ne.symm h]
    · simp [mget, mdel, h0, ih]

theorem mset_isSome {α : Type} (m : List (String × α)) (k k' : String) (v : α)
    (h : (mget m k').isSome) : (mget (mset m k v) k').isSome := by
  by_cases hk : k' = k
  · subst hk
    simp [mget_mset_self]
  · rwa [mget_mset_ne _ _ hk]

theorem mset_keys {α : Type} (m : List (String × α)) (k : String) (v : α) :
    (mset m k v).map Prod.fst = m.map Prod.fst ∨
      (mset m k v).map Prod.fst = m.map Prod.fst ++ [k] := by
  induction m with
  | nil => simp [mset]
  | cons p t ih =>
    obtain ⟨k₀, v₀⟩ := p
    by_cases h0 : k₀ = k
    · subst h0
      simp [mset]
    · rcases ih with ih | ih <;> simp [mset, h0, ih]

theorem mset_length {α : Type} (m : List (String × α)) (k : String) (v : α) :
    m.length ≤ (mset m k v).length := by
  induction m with
  | nil => simp [mset]
  | cons p t ih =>
    obtain ⟨k₀, v₀⟩ := p
    by_cases h0 : k₀ = k
    · simp [mset, h0]
    · simpa [mset, h0] using ih

/-! ### Helper facts about the concrete scenario graph -/

theorem aArc_mem {adj : List (String × List String)} {u v : String}
    (h : aArc adj u v = true) : ∃ p ∈ adj, p.1 = u ∧ v ∈ p.2 := by
  rw [aArc] at h
  cases hm : mget adj u with
  | none => rw [hm] at h; exact absurd h (by simp)
  | some s =>
    rw [hm] at h
    exact ⟨(u, s), mget_mem hm, rfl, by simpa using h⟩

theorem gABC_adj_eval : gABC.adj = [("A", ["B", "C"]), ("B", ["C"]), ("C", [])] := by
  decide

theorem reach_gABC {v : String} (h : Reach gABC "A" v) :
    v = "A" ∨ v = "B" ∨ v = "C" := by
  induction h with
  | refl => exact Or.inl rfl
  | step hr harc ih =>
    obtain ⟨p, hp, hpu, hv⟩ := aArc_mem harc
    rw [gABC_adj_eval] at hp
    simp only [List.mem_cons, List.not_mem_nil, or_false] at hp
    rcases hp with hp | hp | hp <;> subst hp <;> simp_all

/-! ### Claim C5 -/

/-- C5: on the concrete graph with arcs A→B(1), B→C(2), A→C(5), the full
search `Dijkstra(G, [A])` returns distances `\x7bA:0, B:1, C:3\x7d` and
predecessors `\x7bA:sentinel, B:A, C:B\x7d`, and the single-target search
`Dijkstra(G, [A, C])` returns the path `[A, B, C]`. -/
theorem dijkstra_concrete_scenario :
    DijkstraFull gABC "A" none =
      ([("A", some 0), ("B", some 1), ("C", some 3)],
       [("A", none), ("B", some "A"), ("C", some "B")]) ∧
    DijkstraPath gABC "A" "C" none = ["A", "B", "C"] := by
  decide

/-! ### Claim C6 -/

/-- C6: with options `\x7bmaxCumulWeight: m\x7d` supplied, a relaxation whose
candidate cumulative distance `k + w` strictly exceeds `m` is skipped
entirely (the state — distance map, predecessor map, queue and handle table —
is returned unchanged); and on the concrete graph with arcs A→B(1), B→C(2),
A→C(5), `Dijkstra(G, [A, C], \x7bmaxCumulWeight: 2\x7d)` returns the empty
path. -/
theorem maxCumulWeight_prunes :
    (∀ (g : WeightedGraph) (m : ℤ) (u : String) (k : ℤ) (st : DState)
        (v : String) (w : ℤ),
        mget g.weights (wkey u v) = some w → m < k + w →
        relaxNeighbor (some m) g u k st v = st) ∧
    DijkstraPath gABC "A" "C" (some 2) = [] := by
  refine ⟨fun g m u k st v w hw hm => ?_, by decide⟩
  rw [relaxNeighbor, hw]
  simp only [decide_eq_true hm, if_true]

/-- C6 witness: the pruned relaxation of the arc A→C (candidate 0 + 5 > 2)
leaves the initial state untouched. -/
theorem maxCumulWeight_prunes_witness :
    relaxNeighbor (some 2) gABC "A" 0 (initState gABC "A") "C" =
      initState gABC "A" ∧
    DijkstraPath gABC "A" "C" (some 2) = [] :=
  ⟨maxCumulWeight_prunes.1 gABC 2 "A" 0 (initState gABC "A") "C" 5
      (by decide) (by decide),
    maxCumulWeight_prunes.2⟩

/-! ### Claim C1: counterexample -/

/-- C1 counterexample: the empty string is a node of its graph and is its own
single-target query, yet `Dijkstra(G, [s, s])` returns `[]`, not `[s]`: the
guard `source && e === source` in `tracePath` fails for the falsy source
`""`. -/
theorem tracePath_empty_source_counterexample :
    "" ∈ (WeightedGraph.empty.addNode "").nodes ∧
    DijkstraPath (WeightedGraph.empty.addNode "") "" "" none = [] ∧
    DijkstraPath (WeightedGraph.empty.addNode "") "" "" none ≠ [""] := by
  decide

/-! ### Claim C2: counterexample -/

/-- C2 counterexample: "X" is not a node of the concrete graph (so in
particular not reachable from "A"), yet `Dijkstra(G, [A, X])` returns
`["X"]`, not the empty sequence: `prev.get("X")` is `undefined`, which the
`tracePath` guard `prev.get(e) !== nullNode` lets through. -/
theorem dijkstraPath_nonnode_target_counterexample :
    ¬ Reach gABC "A" "X" ∧
    "X" ∉ gABC.nodes ∧
    gABC.weights.all (fun p => decide (0 ≤ p.2)) = true ∧
    DijkstraPath gABC "A" "X" none = ["X"] := by
  refine ⟨fun h => ?_, by decide, by decide, by decide⟩
  rcases reach_gABC h with h' | h' | h' <;> simp at h'

/-! ### Claim C3: counterexample -/

/-- C3 counterexample: after the single API call `addArc("a", "b-c", 1)` on
the empty graph, the weights map holds an entry for the ordered pair
`("a-b", "c")` — its key `"a-b-c"` collides — although the arc
`("a-b", "c")` does not exist in the adjacency structure. -/
theorem weights_arc_iff_counterexample :
    (mget (WeightedGraph.empty.addArc "a" "b-c" 1).weights
        (wkey "a-b" "c")).isSome = true ∧
    (WeightedGraph.empty.addArc "a" "b-c" 1).arcB "a-b" "c" = false := by
  decide

/-! ### Claim C4: counterexample -/

/-- C4 counterexample: build `addArc("a-b", "c", 1)`, `addArc("a", "b-c", 2)`,
then `removeArc("a", "b-c")`.  The arc `("a-b", "c")` still exists in the
adjacency structure, so `weight("a-b", "c")` does not throw, but the colliding
key `"a-b-c"` was deleted, so the method silently returns the absent value
`undefined` instead of the stored numeric weight `1`. -/
theorem weight_absent_value_counterexample :
    (((WeightedGraph.empty.addArc "a-b" "c" 1).addArc "a" "b-c" 2).removeArc
        "a" "b-c").arcB "a-b" "c" = true ∧
    (((WeightedGraph.empty.addArc "a-b" "c" 1).addArc "a" "b-c" 2).removeArc
        "a" "b-c").weight "a-b" "c" = some none := by
  decide

/-! ### Claim C10: counterexample -/

/-- C10 counterexample: on a `WeightedGraph` whose adjacency map was injected
through the constructor with the member "b" not registered as a key,
`addArc("a", "b", 2)` on the already-existing arc `("a", "b")` does append the
fresh key "b" — the adjacency structure does not stay unchanged. -/
theorem addArc_existing_counterexample :
    (WeightedGraph.mk [("a", ["b"])] [("a-b", 1)]).arcB "a" "b" = true ∧
    ((WeightedGraph.mk [("a", ["b"])] [("a-b", 1)]).addArc "a" "b" 2).adj ≠
      (WeightedGraph.mk [("a", ["b"])] [("a-b", 1)]).adj := by
  decide

/-! ### Claim C10: amended theorem -/

theorem mget_isSome_of_mem_keys {α : Type} {m : List (String × α)} {k : String}
    (h : k ∈ m.map Prod.fst) : (mget m k).isSome := by
  induction m with
  | nil => simp at h
  | cons p t ih =>
    obtain ⟨k₀, v₀⟩ := p
    by_cases h0 : k₀ = k
    · simp [mget, h0]
    · rw [mget, if_neg h0]
      simp only [List.map_cons, List.mem_cons] at h
      exact ih (h.resolve_left fun hh => h0 hh.symm)

theorem mset_eq_of_mget {α : Type} {m : List (String × α)} {k : String} {v : α}
    (h : mget m k = some v) : mset m k v = m := by
  induction m with
  | nil => simp [mget] at h
  | cons p t ih =>
    obtain ⟨k₀, v₀⟩ := p
    by_cases h0 : k₀ = k
    · subst h0
      rw [mget, if_pos rfl] at h
      injection h with hv
      subst hv
      rw [mset, if_pos rfl]
    · rw [mget, if_neg h0] at h
      rw [mset, if_neg h0, ih h]

theorem arcB_mget {g : WeightedGraph} {n1 n2 : String} (h : g.arcB n1 n2 = true) :
    ∃ s, mget g.adj n1 = some s ∧ n2 ∈ s := by
  rw [WeightedGraph.arcB, aArc] at h
  cases hm : mget g.adj n1 with
  | none => rw [hm] at h; exact absurd h (by simp)
  | some s =>
    rw [hm] at h
    exact ⟨s, rfl, by simpa using h⟩

/-- C10 (amended): calling `addArc(n1, n2, w)` when the arc `(n1, n2)` already
exists and both endpoints are registered nodes — as is always the case for
graphs built through the API, whose constructor was not fed a raw adjacency
map with unregistered set members — leaves the adjacency structure unchanged
and overwrites the stored weight of the arc's key with `w`; when the weight
argument is omitted, directly or through `addEdge` without a weight, the
stored weight is reset to the default `0`. -/
theorem addArc_existing_overwrites_weight :
    (∀ (g : WeightedGraph) (n1 n2 : String) (w : ℤ),
      g.arcB n1 n2 = true → n2 ∈ g.nodes →
      (g.addArc n1 n2 w).adj = g.adj ∧
      mget (g.addArc n1 n2 w).weights (wkey n1 n2) = some w) ∧
    (∀ (g : WeightedGraph) (n1 n2 : String),
      mget (g.addArc n1 n2).weights (wkey n1 n2) = some 0) ∧
    (∀ (g : WeightedGraph) (n1 n2 : String),
      mget (g.addEdge n1 n2 none).weights (wkey n2 n1) = some 0 ∧
      (n1 ≠ n2 → mget (g.addEdge n1 n2 none).weights (wkey n1 n2) = some 0)) := by
  refine ⟨fun g n1 n2 w harc hn2 => ⟨?_, mget_mset_self ..⟩,
    fun g n1 n2 => mget_mset_self .., fun g n1 n2 => ⟨mget_mset_self .., ?_⟩⟩
  · obtain ⟨s, hs, hmem⟩ := arcB_mget harc
    show adjAddArc g.adj n1 n2 = g.adj
    rw [adjAddArc]
    have h1 : adjAddNode g.adj n1 = g.adj := by rw [adjAddNode, hs]
    have h2 : adjAddNode g.adj n2 = g.adj := by
      rw [adjAddNode]
      obtain ⟨x, hx⟩ := Option.isSome_iff_exists.mp
        (mget_isSome_of_mem_keys (show n2 ∈ g.adj.map Prod.fst from hn2))
      rw [hx]
    rw [h1, h2, hs]
    show mset g.adj n1 (sadd s n2) = g.adj
    have : sadd s n2 = s := by rw [sadd, if_pos hmem]
    rw [this, mset_eq_of_mget hs]
  · intro hne
    show mget (mset (mset g.weights (wkey n1 n2) 0) (wkey n2 n1) 0) (wkey n1 n2)
      = some 0
    by_cases hkey : wkey n1 n2 = wkey n2 n1
    · rw [hkey, mget_mset_self]
    · rw [mget_mset_ne _ _ hkey, mget_mset_self]

/-- C10 witness: on the concrete scenario graph, re-adding the existing arc
A→B with weight 7 keeps the adjacency lists and overwrites the weight;
`addArc`/`addEdge` without a weight store 0. -/
theorem addArc_existing_overwrites_weight_witness :
    ((gABC.addArc "A" "B" 7).adj = gABC.adj ∧
      mget (gABC.addArc "A" "B" 7).weights (wkey "A" "B") = some 7) ∧
    mget (gABC.addArc "A" "B").weights (wkey "A" "B") = some 0 ∧
    mget (gABC.addEdge "A" "B" none).weights (wkey "B" "A") = some 0 ∧
    mget (gABC.addEdge "A" "B" none).weights (wkey "A" "B") = some 0 :=
  ⟨addArc_existing_overwrites_weight.1 gABC "A" "B" 7 (by decide) (by decide),
    addArc_existing_overwrites_weight.2.1 gABC "A" "B",
    (addArc_existing_overwrites_weight.2.2 gABC "A" "B").1,
    (addArc_existing_overwrites_weight.2.2 gABC "A" "B").2 (by decide)⟩

/-! ### Weight-key injectivity for separator-free identifiers -/

theorem sep_split_inj {sep : Char} :
    ∀ {l1 l3 l2 l4 : List Char}, sep ∉ l1 → sep ∉ l3 →
      l1 ++ sep :: l2 = l3 ++ sep :: l4 → l1 = l3 ∧ l2 = l4 := by
  intro l1
  induction l1 with
  | nil =>
    intro l3 l2 l4 _ h3 h
    cases l3 with
    | nil => simpa using h
    | cons c t =>
      simp only [List.nil_append, List.cons_append, List.cons.injEq] at h
      exact absurd (h.1 ▸ List.mem_cons_self ..) h3
  | cons a t ih =>
    intro l3 l2 l4 h1 h3 h
    cases l3 with
    | nil =>
      simp only [List.nil_append, List.cons_append, List.cons.injEq] at h
      exact absurd (h.1 ▸ List.mem_cons_self ..) h1
    | cons c t3 =>
      simp only [List.cons_append, List.cons.injEq] at h
      obtain ⟨hac, hrest⟩ := h
      have h1' : sep ∉ t := fun hm => h1 (List.mem_cons_of_mem _ hm)
      have h3' : sep ∉ t3 := fun hm => h3 (List.mem_cons_of_mem _ hm)
      obtain ⟨he, hl⟩ := ih h1' h3' hrest
      exact ⟨by rw [hac, he], hl⟩

theorem string_data_inj {a b : String} (h : a.data = b.data) : a = b := by
  cases a
  cases b
  exact congrArg String.mk h

theorem cleanId_not_mem {s : String} (h : cleanId s = true) : '-' ∉ s.data := by
  rw [cleanId] at h
  simpa using h

theorem wkey_inj {a b c d : String} (ha : cleanId a = true) (hc : cleanId c = true)
    (h : wkey a b = wkey c d) : a = c ∧ b = d := by
  have hdata : a.data ++ '-' :: b.data = c.data ++ '-' :: d.data := by
    have h' := congrArg String.data h
    simpa [wkey, String.data_append] using h'
  obtain ⟨h1, h2⟩ := sep_split_inj (cleanId_not_mem ha) (cleanId_not_mem hc) hdata
  exact ⟨string_data_inj h1, string_data_inj h2⟩

theorem wkey_ne {a b c d : String} (ha : cleanId a = true) (hc : cleanId c = true)
    (hne : ¬(a = c ∧ b = d)) : wkey a b ≠ wkey c d :=
  fun h => hne (wkey_inj ha hc h)

/-! ### Key-set bookkeeping for `mset`/`mdel` -/

theorem mset_mem {α : Type} {m : List (String × α)} {k : String} {v : α}
    {p : String × α} (h : p ∈ mset m k v) : p ∈ m ∨ p = (k, v) := by
  induction m with
  | nil => simpa [mset] using h
  | cons q t ih =>
    obtain ⟨k₀, v₀⟩ := q
    by_cases h0 : k₀ = k
    · rw [mset, if_pos h0] at h
      rcases List.mem_cons.mp h with h | h
      · exact Or.inr h
      · exact Or.inl (List.mem_cons_of_mem _ h)
    · rw [mset, if_neg h0] at h
      rcases List.mem_cons.mp h with h | h
      · exact Or.inl (h ▸ List.mem_cons_self ..)
      · rcases ih h with h | h
        · exact Or.inl (List.mem_cons_of_mem _ h)
        · exact Or.inr h

theorem mset_keys_cases {α : Type} (m : List (String × α)) (k : String) (v : α) :
    ((mget m k).isSome = true ∧ (mset m k v).map Prod.fst = m.map Prod.fst) ∨
      (mget m k = none ∧ (mset m k v).map Prod.fst = m.map Prod.fst ++ [k]) := by
  induction m with
  | nil => simp [mget, mset]
  | cons q t ih =>
    obtain ⟨k₀, v₀⟩ := q
    by_cases h0 : k₀ = k
    · subst h0
      simp [mget, mset]
    · rcases ih with ⟨ih1, ih2⟩ | ⟨ih1, ih2⟩
      · exact Or.inl ⟨by simpa [mget, h0] using ih1, by simp [mset, h0, ih2]⟩
      · exact Or.inr ⟨by simpa [mget, h0] using ih1, by simp [mset, h0, ih2]⟩

theorem mset_keys_nodup {α : Type} {m : List (String × α)} (k : String) (v : α)
    (h : (m.map Prod.fst).Nodup) : ((mset m k v).map Prod.fst).Nodup := by
  rcases mset_keys_cases m k v with ⟨_, he⟩ | ⟨h1, he⟩
  · rwa [he]
  · rw [he]
    have : k ∉ m.map Prod.fst := fun hm => by
      have hs := mget_isSome_of_mem_keys hm
      rw [h1] at hs
      simp at hs
    simp [List.nodup_append, h, this]

theorem mdel_keys_sublist {α : Type} (m : List (String × α)) (k : String) :
    List.Sublist ((mdel m k).map Prod.fst) (m.map Prod.fst) := by
  induction m with
  | nil => simp [mdel]
  | cons q t ih =>
    obtain ⟨k₀, v₀⟩ := q
    by_cases h0 : k₀ = k
    · rw [mdel, if_pos h0]
      exact (List.sublist_cons_self ..)
    · rw [mdel, if_neg h0]
      simpa using List.Sublist.cons₂ k₀ ih

theorem mdel_keys_nodup {α : Type} {m : List (String × α)} (k : String)
    (h : (m.map Prod.fst).Nodup) : ((mdel m k).map Prod.fst).Nodup :=
  (mdel_keys_sublist m k).nodup h

/-! ### Adjacency-operation lemmas -/

theorem aArc_iff {adj : List (String × List String)} {n1 n2 : String} :
    aArc adj n1 n2 = true ↔ ∃ s, mget adj n1 = some s ∧ n2 ∈ s := by
  unfold aArc
  cases h : mget adj n1 with
  | none => simp
  | some s => simp

theorem sadd_mem {s : List String} {x y : String} :
    x ∈ sadd s y ↔ x ∈ s ∨ x = y := by
  rw [sadd]
  by_cases h : y ∈ s
  · rw [if_pos h]
    constructor
    · exact Or.inl
    · rintro (hx | rfl) <;> assumption
  · rw [if_neg h]
    simp

theorem mget_append {α : Type} (m1 m2 : List (String × α)) (k : String) :
    mget (m1 ++ m2) k =
      match mget m1 k with
      | some v => some v
      | none => mget m2 k := by
  induction m1 with
  | nil => simp [mget]
  | cons p t ih =>
    obtain ⟨k₀, v₀⟩ := p
    by_cases h0 : k₀ = k
    · simp [mget, h0]
    · simp [mget, h0, ih]

theorem mget_adjAddNode (adj : List (String × List String)) (n k : String) :
    mget (adjAddNode adj n) k =
      match mget adj k with
      | some s => some s
      | none => if n = k then some [] else none := by
  rw [adjAddNode]
  cases h : mget adj n with
  | some s =>
    cases h' : mget adj k with
    | some s' => simp [h']
    | none =>
      have hnk : n ≠ k := fun hh => by rw [hh, h'] at h; cases h
      simp [h', hnk]
  | none =>
    rw [mget_append]
    cases h' : mget adj k <;> simp [h', mget]

theorem aArc_adjAddNode (adj : List (String × List String)) (n n1 n2 : String) :
    aArc (adjAddNode adj n) n1 n2 = aArc adj n1 n2 := by
  unfold aArc
  rw [mget_adjAddNode]
  cases h : mget adj n1 with
  | some s => simp
  | none =>
    by_cases hn : n = n1 <;> simp [hn]

theorem mget_adjAddNode2_self (adj : List (String × List String)) (u v : String) :
    mget (adjAddNode (adjAddNode adj u) v) u =
      some (match mget adj u with | some s => s | none => []) := by
  rw [mget_adjAddNode, mget_adjAddNode]
  cases h : mget adj u with
  | some s => simp
  | none => simp

theorem adjAddArc_eq (adj : List (String × List String)) (u v : String) :
    adjAddArc adj u v =
      mset (adjAddNode (adjAddNode adj u) v) u
        (sadd (match mget adj u with | some s => s | none => []) v) := by
  rw [adjAddArc, mget_adjAddNode2_self adj u v]

theorem aArc_adjAddArc (adj : List (String × List String)) (u v n1 n2 : String) :
    aArc (adjAddArc adj u v) n1 n2 = true ↔
      (aArc adj n1 n2 = true ∨ (n1 = u ∧ n2 = v)) := by
  rw [adjAddArc_eq]
  by_cases hn1 : n1 = u
  · subst hn1
    rw [aArc_iff]
    constructor
    · rintro ⟨s, hs, hmem⟩
      rw [mget_mset_self] at hs
      injection hs with hs
      subst hs
      rcases sadd_mem.mp hmem with hmem | rfl
      · left
        rw [aArc_iff]
        cases h : mget adj n1 with
        | some s' =>
          simp only [h] at hmem
          exact ⟨s', rfl, hmem⟩
        | none =>
          simp only [h] at hmem
          simp at hmem
      · exact Or.inr ⟨rfl, rfl⟩
    · intro h
      refine ⟨_, mget_mset_self .., ?_⟩
      rcases h with h | ⟨_, rfl⟩
      · rw [aArc_iff] at h
        obtain ⟨s, hs, hmem⟩ := h
        rw [sadd_mem]
        rw [hs]
        exact Or.inl hmem
      · exact sadd_mem.mpr (Or.inr rfl)
  · have hm : mget (mset (adjAddNode (adjAddNode adj u) v) u
        (sadd (match mget adj u with | some s => s | none => []) v)) n1 =
        mget (adjAddNode (adjAddNode adj u) v) n1 := mget_mset_ne _ _ hn1
    unfold aArc
    rw [hm]
    have h2 : aArc (adjAddNode (adjAddNode adj u) v) n1 n2 = aArc adj n1 n2 := by
      rw [aArc_adjAddNode, aArc_adjAddNode]
    unfold aArc at h2
    rw [h2]
    cases h : mget adj n1 with
    | some s => simp [hn1]
    | none => simp [hn1]

theorem aArc_adjRemoveArc (adj : List (String × List String)) (u v n1 n2 : String)
    (hnd : ∀ p ∈ adj, p.2.Nodup) :
    aArc (adjRemoveArc adj u v) n1 n2 = true ↔
      (aArc adj n1 n2 = true ∧ ¬(n1 = u ∧ n2 = v)) := by
  rw [adjRemoveArc]
  cases h : mget adj u with
  | none =>
    constructor
    · intro ha
      refine ⟨ha, ?_⟩
      rintro ⟨rfl, rfl⟩
      obtain ⟨s, hs, _⟩ := aArc_iff.mp ha
      rw [h] at hs
      cases hs
    · exact fun hp => hp.1
  | some s =>
    rw [aArc_iff, aArc_iff]
    by_cases hn1 : n1 = u
    · subst hn1
      rw [mget_mset_self]
      constructor
      · rintro ⟨s', hs', hmem⟩
        injection hs' with hs'
        subst hs'
        by_cases hn2 : n2 = v
        · subst hn2
          exact absurd hmem ((hnd _ (mget_mem h)).not_mem_erase)
        · rw [List.mem_erase_of_ne hn2] at hmem
          exact ⟨⟨s, h, hmem⟩, fun hp => hn2 hp.2⟩
      · rintro ⟨⟨s', hs', hmem⟩, hne⟩
        rw [h] at hs'
        injection hs' with hs'
        subst hs'
        have hn2 : n2 ≠ v := fun hh => hne ⟨rfl, hh⟩
        exact ⟨_, rfl, (List.mem_erase_of_ne hn2).mpr hmem⟩
    · rw [mget_mset_ne _ _ hn1]
      constructor
      · rintro ⟨s', hs', hmem⟩
        exact ⟨⟨s', hs', hmem⟩, fun hp => hn1 hp.1⟩
      · rintro ⟨⟨s', hs', hmem⟩, _⟩
        exact ⟨s', hs', hmem⟩

/-! ### Structural invariant of API-built graphs -/

/-- Well-formedness facts every API-built graph enjoys: the weights map has
no duplicate keys and every adjacency set is duplicate-free. -/
def WGInv (g : WeightedGraph) : Prop :=
  (g.weights.map Prod.fst).Nodup ∧ ∀ p ∈ g.adj, p.2.Nodup

theorem sadd_nodup {s : List String} {x : String} (h : s.Nodup) :
    (sadd s x).Nodup := by
  rw [sadd]
  by_cases hx : x ∈ s
  · rwa [if_pos hx]
  · rw [if_neg hx]
    simp [List.nodup_append, h, hx]

theorem adjAddNode_nodup {adj : List (String × List String)}
    (h : ∀ p ∈ adj, p.2.Nodup) (n : String) :
    ∀ p ∈ adjAddNode adj n, p.2.Nodup := by
  intro p hp
  unfold adjAddNode at hp
  split at hp
  · exact h p hp
  · rcases List.mem_append.mp hp with hp | hp
    · exact h p hp
    · simp only [List.mem_singleton] at hp
      subst hp
      simp

theorem adjAddArc_nodup {adj : List (String × List String)}
    (h : ∀ p ∈ adj, p.2.Nodup) (u v : String) :
    ∀ p ∈ adjAddArc adj u v, p.2.Nodup := by
  rw [adjAddArc_eq]
  intro p hp
  rcases mset_mem hp with hp | rfl
  · exact adjAddNode_nodup (adjAddNode_nodup h u) v p hp
  · show (sadd _ v).Nodup
    refine sadd_nodup ?_
    cases hm : mget adj u with
    | some s =>
      simp only [hm]
      exact h (u, s) (mget_mem hm)
    | none => simp [hm]

theorem adjRemoveArc_nodup {adj : List (String × List String)}
    (h : ∀ p ∈ adj, p.2.Nodup) (u v : String) :
    ∀ p ∈ adjRemoveArc adj u v, p.2.Nodup := by
  intro p hp
  unfold adjRemoveArc at hp
  split at hp
  case _ s hm =>
    rcases mset_mem hp with hp | rfl
    · exact h p hp
    · exact (h (u, s) (mget_mem hm)).erase v
  case _ => exact h p hp

/-- Weight-entry / arc agreement over separator-free identifier pairs. -/
def WeightsIffArcs (g : WeightedGraph) : Prop :=
  ∀ n1 n2 : String, cleanId n1 = true → cleanId n2 = true →
    ((mget g.weights (wkey n1 n2)).isSome = true ↔ g.arcB n1 n2 = true)

theorem addNode_WeightsIffArcs {g : WeightedGraph} {n : String}
    (hg : WeightsIffArcs g) : WeightsIffArcs (g.addNode n) := by
  intro n1 n2 h1 h2
  show (mget g.weights _).isSome = true ↔ aArc (adjAddNode g.adj n) n1 n2 = true
  rw [aArc_adjAddNode]
  exact hg n1 n2 h1 h2

theorem addArc_WeightsIffArcs {g : WeightedGraph} {u v : String} {w : ℤ}
    (hg : WeightsIffArcs g) (hu : cleanId u = true) (hv : cleanId v = true) :
    WeightsIffArcs (g.addArc u v w) := by
  intro n1 n2 h1 h2
  show (mget (mset g.weights (wkey u v) w) (wkey n1 n2)).isSome = true ↔
    aArc (adjAddArc g.adj u v) n1 n2 = true
  rw [aArc_adjAddArc]
  by_cases hp : n1 = u ∧ n2 = v
  · obtain ⟨rfl, rfl⟩ := hp
    rw [mget_mset_self]
    simp
  · rw [mget_mset_ne _ _ (wkey_ne h1 hu hp)]
    rw [hg n1 n2 h1 h2]
    simp [WeightedGraph.arcB, hp]

theorem removeArc_WeightsIffArcs {g : WeightedGraph} {u v : String}
    (hg : WeightsIffArcs g) (hWG : WGInv g) (hu : cleanId u = true) :
    WeightsIffArcs (g.removeArc u v) := by
  intro n1 n2 h1 h2
  show (mget (mdel g.weights (wkey u v)) (wkey n1 n2)).isSome = true ↔
    aArc (adjRemoveArc g.adj u v) n1 n2 = true
  rw [aArc_adjRemoveArc _ _ _ _ _ hWG.2]
  by_cases hp : n1 = u ∧ n2 = v
  · obtain ⟨rfl, rfl⟩ := hp
    rw [mget_mdel_self _ _ hWG.1]
    simp
  · rw [mget_mdel_ne _ (wkey_ne h1 hu hp)]
    rw [hg n1 n2 h1 h2]
    simp [WeightedGraph.arcB, hp]

theorem built_invariant {g : WeightedGraph} (h : Built g) :
    WGInv g ∧ WeightsIffArcs g := by
  induction h with
  | empty =>
    refine ⟨⟨by simp [WeightedGraph.empty], by simp [WeightedGraph.empty]⟩, ?_⟩
    intro n1 n2 _ _
    simp [WeightedGraph.empty, WeightedGraph.arcB, aArc, mget]
  | addNode hb hc ih =>
    exact ⟨⟨ih.1.1, adjAddNode_nodup ih.1.2 _⟩, addNode_WeightsIffArcs ih.2⟩
  | addArc hb h1 h2 ih =>
    exact ⟨⟨mset_keys_nodup _ _ ih.1.1, adjAddArc_nodup ih.1.2 _ _⟩,
      addArc_WeightsIffArcs ih.2 h1 h2⟩
  | addEdge hb h1 h2 ih =>
    refine ⟨⟨mset_keys_nodup _ _ (mset_keys_nodup _ _ ih.1.1),
      adjAddArc_nodup (adjAddArc_nodup ih.1.2 _ _) _ _⟩, ?_⟩
    exact addArc_WeightsIffArcs (addArc_WeightsIffArcs ih.2 h1 h2) h2 h1
  | removeArc hb h1 h2 ih =>
    exact ⟨⟨mdel_keys_nodup _ ih.1.1, adjRemoveArc_nodup ih.1.2 _ _⟩,
      removeArc_WeightsIffArcs ih.2 ih.1 h1⟩
  | @removeEdge g n1 n2 hb h1 h2 ih =>
    have step1 : WGInv (g.removeArc n1 n2) ∧ WeightsIffArcs (g.removeArc n1 n2) :=
      ⟨⟨mdel_keys_nodup _ ih.1.1, adjRemoveArc_nodup ih.1.2 _ _⟩,
        removeArc_WeightsIffArcs ih.2 ih.1 h1⟩
    exact ⟨⟨mdel_keys_nodup _ step1.1.1, adjRemoveArc_nodup step1.1.2 _ _⟩,
      removeArc_WeightsIffArcs step1.2 step1.1 h2⟩

/-! ### Claim C3: amended theorem -/

/-- C3 (amended): for every `WeightedGraph` reachable from the empty graph by
`addNode`/`addArc`/`addEdge`/`removeArc`/`removeEdge` calls whose node
identifiers stay free of the `-` key separator (numbers and typical string
ids), and every ordered pair `(n1, n2)` of such identifiers, an entry exists
in the weights map for `(n1, n2)` if and only if the arc `(n1, n2)` exists in
the adjacency structure: every arc add/remove updates both together.  (With a
separator inside an identifier the encoded keys of distinct pairs collide and
the equivalence fails.) -/
theorem built_weights_iff_arc (g : WeightedGraph) (hb : Built g) (n1 n2 : String)
    (h1 : cleanId n1 = true) (h2 : cleanId n2 = true) :
    (mget g.weights (wkey n1 n2)).isSome = true ↔ g.arcB n1 n2 = true :=
  (built_invariant hb).2 n1 n2 h1 h2

/-- C3 witness: the equivalence holds on the concrete scenario graph, both for
a present arc (A→B) and for the missing reverse arc (B→A). -/
theorem built_weights_iff_arc_witness :
    ((mget gABC.weights (wkey "A" "B")).isSome = true ↔ gABC.arcB "A" "B" = true) ∧
    ((mget gABC.weights (wkey "B" "A")).isSome = true ↔ gABC.arcB "B" "A" = true) :=
  have hb : Built gABC :=
    Built.addArc
      (Built.addArc (Built.addArc Built.empty (by decide) (by decide))
        (by decide) (by decide))
      (by decide) (by decide)
  ⟨built_weights_iff_arc gABC hb "A" "B" (by decide) (by decide),
    built_weights_iff_arc gABC hb "B" "A" (by decide) (by decide)⟩

/-! ### Claim C4: amended theorem -/

/-- C4 (amended): on every API-built `WeightedGraph` whose node identifiers
stay free of the `-` key separator, `weight(n1, n2)` throws exactly when the
arc `(n1, n2)` is absent from the adjacency structure, and otherwise returns
an actually stored numeric weight, never an absent value.  (With colliding
keys — identifiers containing the separator — the method can instead smuggle
`undefined` or another arc's weight through its non-null assertion.) -/
theorem weight_fails_iff_no_arc (g : WeightedGraph) (hb : Built g) (n1 n2 : String)
    (h1 : cleanId n1 = true) (h2 : cleanId n2 = true) :
    (g.weight n1 n2 = none ↔ g.arcB n1 n2 = false) ∧
    (g.arcB n1 n2 = true →
      ∃ w, g.weight n1 n2 = some (some w) ∧ mget g.weights (wkey n1 n2) = some w) := by
  have hiff := (built_invariant hb).2 n1 n2 h1 h2
  constructor
  · by_cases ha : g.arcB n1 n2 = true
    · simp [WeightedGraph.weight, ha]
    · simp [WeightedGraph.weight, ha]
  · intro ha
    obtain ⟨w, hw⟩ := Option.isSome_iff_exists.mp (hiff.mpr ha)
    exact ⟨w, by rw [WeightedGraph.weight, if_pos ha, hw], hw⟩

/-- C4 witness: on the concrete scenario graph, `weight("A","B")` succeeds
with the stored weight and `weight("B","A")` throws. -/
theorem weight_fails_iff_no_arc_witness :
    ((gABC.weight "A" "B" = none ↔ gABC.arcB "A" "B" = false) ∧
      (gABC.arcB "A" "B" = true →
        ∃ w, gABC.weight "A" "B" = some (some w) ∧
          mget gABC.weights (wkey "A" "B") = some w)) ∧
    (gABC.weight "B" "A" = none ↔ gABC.arcB "B" "A" = false) :=
  have hb : Built gABC :=
    Built.addArc
      (Built.addArc (Built.addArc Built.empty (by decide) (by decide))
        (by decide) (by decide))
      (by decide) (by decide)
  ⟨weight_fails_iff_no_arc gABC hb "A" "B" (by decide) (by decide),
    (weight_fails_iff_no_arc gABC hb "B" "A" (by decide) (by decide)).1⟩

/-! ### The distance map only ever decreases -/

theorem effDist_eq_join (d : List (String × Option ℤ)) (x : String) :
    effDist d x = (mget d x).join := by
  rw [effDist]
  cases mget d x with
  | none => rfl
  | some q => cases q <;> rfl

theorem qlt_lt_trans {q q' : ℤ} {b : Option ℤ} (h1 : q < q')
    (h2 : qlt q' b = true) : qlt q b = true := by
  cases b with
  | none => rfl
  | some e =>
    rw [qlt] at h2 ⊢
    exact decide_eq_true (lt_trans h1 (of_decide_eq_true h2))

/-- Evolution of the distance map across any number of algorithm steps: each
entry is untouched or was overwritten by a value strictly below the entry's
previous effective (`?? Infinity`) value. -/
def distEvol (d d' : List (String × Option ℤ)) : Prop :=
  ∀ x, mget d' x = mget d x ∨
    ∃ q : ℤ, mget d' x = some (some q) ∧ qlt q (effDist d x) = true

theorem distEvol_refl (d : List (String × Option ℤ)) : distEvol d d :=
  fun _ => Or.inl rfl

theorem distEvol_trans {d d' d'' : List (String × Option ℤ)}
    (h1 : distEvol d d') (h2 : distEvol d' d'') : distEvol d d'' := by
  intro x
  rcases h2 x with h2x | ⟨q, hq, hlt⟩
  · rcases h1 x with h1x | ⟨q, hq, hlt⟩
    · exact Or.inl (h2x.trans h1x)
    · exact Or.inr ⟨q, h2x.trans hq, hlt⟩
  · rcases h1 x with h1x | ⟨q', hq', hlt'⟩
    · refine Or.inr ⟨q, hq, ?_⟩
      rwa [effDist_eq_join, h1x, ← effDist_eq_join] at hlt
    · refine Or.inr ⟨q, hq, ?_⟩
      rw [effDist_eq_join, hq'] at hlt
      exact qlt_lt_trans (of_decide_eq_true hlt) hlt'

/-- Case analysis of one relaxation: either the state is untouched, or the
guard `alt < (dist.get(v) ?? Infinity)` (and the optional budget test) passed
and all four components are updated at the neighbor `v`. -/
theorem relaxNeighbor_cases (O : Option ℤ) (g : WeightedGraph) (u : String)
    (k : ℤ) (st : DState) (v : String) :
    relaxNeighbor O g u k st v = st ∨
    ∃ w : ℤ, mget g.weights (wkey u v) = some w ∧
      qlt (k + w) (effDist st.dist v) = true ∧
      (match O with | some m => decide (m < k + w) | none => false) = false ∧
      relaxNeighbor O g u k st v =
        { dist := mset st.dist v (some (k + w))
          prev := mset st.prev v (some u)
          Q :=
            match mget st.QMapping v with
            | some true => decreaseKeyQ st.Q v (k + w)
            | _ => st.Q ++ [(k + w, v)]
          QMapping :=
            match mget st.QMapping v with
            | some true => st.QMapping
            | _ => mset st.QMapping v true } := by
  rw [relaxNeighbor]
  cases hw : mget g.weights (wkey u v) with
  | none => exact Or.inl rfl
  | some w =>
    cases hO : (match O with | some m => decide (m < k + w) | none => false) with
    | true => simp [hO]
    | false =>
      cases hg : qlt (k + w) (effDist st.dist v) with
      | false => simp [hO, hg]
      | true =>
        refine Or.inr ⟨w, rfl, hg, hO, ?_⟩
        simp [hO, hg]

theorem relaxNeighbor_distEvol (O : Option ℤ) (g : WeightedGraph) (u : String)
    (k : ℤ) (st : DState) (v : String) :
    distEvol st.dist (relaxNeighbor O g u k st v).dist := by
  rcases relaxNeighbor_cases O g u k st v with h | ⟨w, hw, hg, hO, h⟩
  · rw [h]
    exact distEvol_refl _
  · rw [h]
    intro x
    by_cases hx : x = v
    · subst hx
      exact Or.inr ⟨k + w, mget_mset_self .., hg⟩
    · exact Or.inl (mget_mset_ne _ _ hx)

theorem foldl_relax_distEvol (O : Option ℤ) (g : WeightedGraph) (u : String)
    (k : ℤ) (l : List String) (st : DState) :
    distEvol st.dist (l.foldl (relaxNeighbor O g u k) st).dist := by
  induction l generalizing st with
  | nil => exact distEvol_refl _
  | cons v t ih =>
    rw [List.foldl_cons]
    exact distEvol_trans (relaxNeighbor_distEvol O g u k st v)
      (ih (relaxNeighbor O g u k st v))

theorem dijkstraLoop_succ_none (g : WeightedGraph) (O : Option ℤ)
    (t : Option String) (fuel : ℕ) (st : DState)
    (hq : extractMin st.Q = none) :
    dijkstraLoop g O t (fuel + 1) st = st := by
  rw [dijkstraLoop, hq]

theorem dijkstraLoop_succ_extract (g : WeightedGraph) (O : Option ℤ)
    (t : Option String) (fuel : ℕ) (st : DState) (k : ℤ) (u : String)
    (Q' : List (ℤ × String)) (hq : extractMin st.Q = some ((k, u), Q')) :
    dijkstraLoop g O t (fuel + 1) st =
      if t = some u then { st with Q := Q', QMapping := mset st.QMapping u false }
      else
        dijkstraLoop g O t fuel
          (((mget g.adj u).getD []).foldl (relaxNeighbor O g u k)
            { st with Q := Q', QMapping := mset st.QMapping u false }) := by
  rw [dijkstraLoop, hq]

/-- C8: during any run of the engine's queue loop, on any weighted graph,
with or without a target or options, each node's recorded distance never
increases: an entry of the distance map is either untouched or was
overwritten (possibly repeatedly) by writes each of which strictly decreases
the recorded value, a missing entry counting as `Infinity`. -/
theorem dist_monotone_decrease (g : WeightedGraph) (O : Option ℤ)
    (t : Option String) (fuel : ℕ) (st : DState) (x : String) :
    mget (dijkstraLoop g O t fuel st).dist x = mget st.dist x ∨
    ∃ q : ℤ, mget (dijkstraLoop g O t fuel st).dist x = some (some q) ∧
      qlt q (effDist st.dist x) = true := by
  induction fuel generalizing st x with
  | zero => exact Or.inl rfl
  | succ fuel ih =>
    cases hq : extractMin st.Q with
    | none =>
      rw [dijkstraLoop_succ_none g O t fuel st hq]
      exact Or.inl rfl
    | some e =>
      obtain ⟨⟨k, u⟩, Q'⟩ := e
      rw [dijkstraLoop_succ_extract g O t fuel st k u Q' hq]
      by_cases ht : t = some u
      · rw [if_pos ht]
        exact Or.inl rfl
      · rw [if_neg ht]
        have h1 : distEvol st.dist
            (((mget g.adj u).getD []).foldl (relaxNeighbor O g u k)
              { st with Q := Q', QMapping := mset st.QMapping u false }).dist :=
          foldl_relax_distEvol O g u k _ _
        have h2 : distEvol
            (((mget g.adj u).getD []).foldl (relaxNeighbor O g u k)
              { st with Q := Q', QMapping := mset st.QMapping u false }).dist
            (dijkstraLoop g O t fuel
              (((mget g.adj u).getD []).foldl (relaxNeighbor O g u k)
                { st with Q := Q', QMapping := mset st.QMapping u false })).dist :=
          fun y => ih _ y
        exact distEvol_trans h1 h2 x

/-! ### Queue-operation characterizations -/

theorem extractMin_eq_none {Q : List (ℤ × String)} (h : extractMin Q = none) :
    Q = [] := by
  cases Q with
  | nil => rfl
  | cons e rest =>
    rw [extractMin] at h
    cases hr : extractMin rest with
    | none => rw [hr] at h; cases h
    | some p =>
      obtain ⟨m, rest'⟩ := p
      rw [hr] at h
      by_cases hle : e.1 ≤ m.1 <;> simp [hle] at h

theorem extractMin_spec {Q : List (ℤ × String)} {e : ℤ × String}
    {Q' : List (ℤ × String)} (h : extractMin Q = some (e, Q')) :
    ∃ l1 l2, Q = l1 ++ e :: l2 ∧ Q' = l1 ++ l2 ∧ ∀ e' ∈ Q, e.1 ≤ e'.1 := by
  induction Q generalizing e Q' with
  | nil => cases h
  | cons a rest ih =>
    rw [extractMin] at h
    cases hr : extractMin rest with
    | none =>
      rw [hr] at h
      injection h with h
      injection h with h1 h2
      subst h1
      subst h2
      rw [extractMin_eq_none hr]
      exact ⟨[], [], rfl, rfl, by simp⟩
    | some p =>
      obtain ⟨m, rest'⟩ := p
      simp only [hr] at h
      by_cases hle : a.1 ≤ m.1
      · rw [if_pos hle] at h
        injection h with h
        injection h with h1 h2
        subst h1
        subst h2
        obtain ⟨l1, l2, hq, _, hmin⟩ := ih hr
        refine ⟨[], rest, rfl, rfl, ?_⟩
        intro e' he'
        rcases List.mem_cons.mp he' with rfl | he'
        · exact le_refl _
        · exact le_trans hle (hmin e' he')
      · rw [if_neg hle] at h
        injection h with h
        injection h with h1 h2
        subst h1
        subst h2
        obtain ⟨l1, l2, hq, hq', hmin⟩ := ih hr
        refine ⟨a :: l1, l2, by rw [hq]; rfl, by rw [hq']; rfl, ?_⟩
        intro e' he'
        rcases List.mem_cons.mp he' with rfl | he'
        · exact le_of_lt (lt_of_not_le hle)
        · exact hmin e' he'

theorem extractMin_mem {Q : List (ℤ × String)} {e : ℤ × String}
    {Q' : List (ℤ × String)} (h : extractMin Q = some (e, Q')) : e ∈ Q := by
  obtain ⟨l1, l2, hq, _, _⟩ := extractMin_spec h
  rw [hq]
  simp

theorem extractMin_sub {Q : List (ℤ × String)} {e : ℤ × String}
    {Q' : List (ℤ × String)} (h : extractMin Q = some (e, Q')) :
    ∀ x ∈ Q', x ∈ Q := by
  obtain ⟨l1, l2, hq, hq', _⟩ := extractMin_spec h
  intro x hx
  rw [hq'] at hx
  rw [hq]
  rcases List.mem_append.mp hx with hx | hx
  · exact List.mem_append.mpr (Or.inl hx)
  · exact List.mem_append.mpr (Or.inr (List.mem_cons_of_mem _ hx))

theorem extractMin_snd_facts {Q : List (ℤ × String)} {e : ℤ × String}
    {Q' : List (ℤ × String)} (h : extractMin Q = some (e, Q'))
    (hnd : (Q.map Prod.snd).Nodup) :
    (Q'.map Prod.snd).Nodup ∧ e.2 ∉ Q'.map Prod.snd ∧
      ∀ v, v ∈ Q.map Prod.snd → v ≠ e.2 → v ∈ Q'.map Prod.snd := by
  obtain ⟨l1, l2, hq, hq', _⟩ := extractMin_spec h
  subst hq
  subst hq'
  simp only [List.map_append, List.map_cons] at hnd ⊢
  constructor
  · exact hnd.sublist (by
      refine List.Sublist.append (List.Sublist.refl _) ?_
      exact List.sublist_cons_self ..)
  constructor
  · intro hmem
    rcases List.mem_append.mp hmem with hmem | hmem
    · have := (List.nodup_append.mp hnd).2.2
      exact this hmem (List.mem_cons_self ..)
    · have := (List.nodup_append.mp hnd).2.1
      rw [List.nodup_cons] at this
      exact this.1 hmem
  · intro v hv hne
    rcases List.mem_append.mp hv with hv | hv
    · exact List.mem_append.mpr (Or.inl hv)
    · rcases List.mem_cons.mp hv with rfl | hv
      · exact absurd rfl hne
      · exact List.mem_append.mpr (Or.inr hv)

theorem decreaseKeyQ_map_snd (Q : List (ℤ × String)) (v : String) (alt : ℤ) :
    (decreaseKeyQ Q v alt).map Prod.snd = Q.map Prod.snd := by
  rw [decreaseKeyQ, List.map_map]
  congr 1
  funext e
  by_cases he : e.2 = v <;> simp [he]

theorem decreaseKeyQ_mem {Q : List (ℤ × String)} {v : String} {alt : ℤ}
    {x : ℤ × String} (h : x ∈ decreaseKeyQ Q v alt) :
    (x ∈ Q ∧ x.2 ≠ v) ∨ (x = (alt, v) ∧ v ∈ Q.map Prod.snd) := by
  rw [decreaseKeyQ] at h
  obtain ⟨e, he, hx⟩ := List.mem_map.mp h
  by_cases hev : e.2 = v
  · rw [if_pos hev] at hx
    exact Or.inr ⟨hx.symm, List.mem_map.mpr ⟨e, he, hev⟩⟩
  · rw [if_neg hev] at hx
    subst hx
    exact Or.inl ⟨he, hev⟩

/-! ### The initial state, componentwise -/

theorem foldl_initStep_Q (s : String) (l : List (String × List String))
    (st : DState) : (l.foldl (initStep s) st).Q = st.Q := by
  induction l generalizing st with
  | nil => rfl
  | cons e t ih => rw [List.foldl_cons, ih]; rfl

theorem foldl_initStep_QMapping (s : String) (l : List (String × List String))
    (st : DState) : (l.foldl (initStep s) st).QMapping = st.QMapping := by
  induction l generalizing st with
  | nil => rfl
  | cons e t ih => rw [List.foldl_cons, ih]; rfl

theorem foldl_initStep_prev (s : String) (l : List (String × List String))
    (st : DState) (x : String) :
    mget (l.foldl (initStep s) st).prev x =
      if x ∈ l.map Prod.fst then some none else mget st.prev x := by
  induction l generalizing st with
  | nil => simp
  | cons e t ih =>
    rw [List.foldl_cons, ih]
    by_cases hxt : x ∈ t.map Prod.fst
    · simp [hxt]
    · by_cases hxe : x = e.1
      · subst hxe
        simp [hxt, initStep, mget_mset_self]
      · simp only [initStep]
        rw [mget_mset_ne _ _ hxe]
        simp [hxt, hxe]

theorem foldl_initStep_dist_s (s : String) (l : List (String × List String))
    (st : DState) : mget (l.foldl (initStep s) st).dist s = mget st.dist s := by
  induction l generalizing st with
  | nil => rfl
  | cons e t ih =>
    rw [List.foldl_cons, ih, initStep]
    by_cases he : e.1 ≠ s
    · rw [if_pos he]
      exact mget_mset_ne _ _ (Ne.symm he)
    · rw [if_neg he]

theorem foldl_initStep_dist (s : String) (l : List (String × List String))
    (st : DState) (x : String) (hx : x ≠ s) :
    mget (l.foldl (initStep s) st).dist x =
      if x ∈ l.map Prod.fst then some none else mget st.dist x := by
  induction l generalizing st with
  | nil => simp
  | cons e t ih =>
    rw [List.foldl_cons, ih]
    by_cases hxt : x ∈ t.map Prod.fst
    · simp [hxt]
    · by_cases hxe : x = e.1
      · subst hxe
        simp only [initStep]
        simp [hxt, hx, mget_mset_self]
      · simp only [initStep]
        by_cases he : e.1 ≠ s
        · rw [if_pos he, mget_mset_ne _ _ hxe]
          simp [hxt, hxe]
        · rw [if_neg he]
          simp [hxt, hxe]

theorem initState_Q (g : WeightedGraph) (s : String) :
    (initState g s).Q = [(0, s)] := foldl_initStep_Q s g.adj _

theorem initState_QMapping (g : WeightedGraph) (s : String) :
    (initState g s).QMapping = [(s, true)] := foldl_initStep_QMapping s g.adj _

theorem initState_prev (g : WeightedGraph) (s : String) (x : String) :
    mget (initState g s).prev x =
      if x ∈ g.adj.map Prod.fst then some none else none := by
  rw [initState, foldl_initStep_prev]
  rfl

theorem initState_dist_s (g : WeightedGraph) (s : String) :
    mget (initState g s).dist s = some (some 0) := by
  rw [initState, foldl_initStep_dist_s]
  simp [mget]

theorem initState_dist (g : WeightedGraph) (s : String) (x : String) (hx : x ≠ s) :
    mget (initState g s).dist x =
      if x ∈ g.adj.map Prod.fst then some none else none := by
  rw [initState, foldl_initStep_dist _ _ _ _ hx]
  simp [mget, Ne.symm hx]

/-! ### The master loop invariant -/

/-- Non-negative stored weights, the standing assumption of Dijkstra. -/
def NonnegWeights (g : WeightedGraph) : Prop := ∀ p ∈ g.weights, 0 ≤ p.2

/-- Invariant carried by every state of the queue loop, relative to the last
extracted key `lb` (`0` before the first extraction):
queue keys never drop below `lb`; every queue entry is a pending node whose
recorded distance equals its key, pending nodes are exactly the queue
members (each once); finalized nodes carry a finite distance at most `lb`;
every recorded predecessor edge `u = prev[v]` is a real arc whose relaxation
equation `dist[v] = dist[u] + w(u,v)` holds with `u` finalized; distances are
finite only for seen (pending or finalized) nodes, all seen nodes are
reachable from the source, and only the source lacks a recorded predecessor;
the source keeps distance `0`, and its predecessor entry stays the sentinel. -/
structure LoopInv (g : WeightedGraph) (s : String) (lb : ℤ) (st : DState) : Prop where
  qLb : ∀ e ∈ st.Q, lb ≤ e.1
  qDist : ∀ e ∈ st.Q, mget st.QMapping e.2 = some true ∧
    mget st.dist e.2 = some (some e.1)
  qNodup : (st.Q.map Prod.snd).Nodup
  pendingQ : ∀ v, mget st.QMapping v = some true → v ∈ st.Q.map Prod.snd
  finalized : ∀ v, mget st.QMapping v = some false →
    ∃ d : ℤ, mget st.dist v = some (some d) ∧ d ≤ lb
  prevInv : ∀ v u, mget st.prev v = some (some u) →
    mget st.QMapping u = some false ∧ g.arcB u v = true ∧
    ∃ w du dv : ℤ, mget g.weights (wkey u v) = some w ∧
      mget st.dist u = some (some du) ∧ mget st.dist v = some (some dv) ∧
      dv = du + w
  seenDist : ∀ v d, mget st.dist v = some (some d) → mget st.QMapping v ≠ none
  seenReach : ∀ v, mget st.QMapping v ≠ none → Reach g s v
  seenPrev : ∀ v, mget st.QMapping v ≠ none →
    v = s ∨ ∃ u, mget st.prev v = some (some u)
  distS : mget st.dist s = some (some 0)
  lbNN : 0 ≤ lb
  prevS : mget st.prev s = none ∨ mget st.prev s = some none

theorem inv_init (g : WeightedGraph) (s : String) : LoopInv g s 0 (initState g s) := by
  have hQ := initState_Q g s
  have hQM := initState_QMapping g s
  have hprev := initState_prev g s
  have hds := initState_dist_s g s
  have hd := initState_dist g s
  constructor
  case qLb =>
    intro e he
    rw [hQ] at he
    simp only [List.mem_singleton] at he
    subst he
    exact le_refl 0
  case qDist =>
    intro e he
    rw [hQ] at he
    simp only [List.mem_singleton] at he
    subst he
    rw [hQM]
    exact ⟨by simp [mget], hds⟩
  case qNodup =>
    rw [hQ]
    simp
  case pendingQ =>
    intro v hv
    rw [hQM] at hv
    rw [hQ]
    by_cases hvs : s = v
    · simp [hvs]
    · rw [mget, if_neg hvs] at hv
      cases hv
  case finalized =>
    intro v hv
    rw [hQM] at hv
    by_cases hvs : s = v
    · rw [mget, if_pos hvs] at hv
      cases hv
    · rw [mget, if_neg hvs] at hv
      cases hv
  case prevInv =>
    intro v u hv
    rw [hprev v] at hv
    by_cases hm : v ∈ g.adj.map Prod.fst
    · rw [if_pos hm] at hv
      cases hv
    · rw [if_neg hm] at hv
      cases hv
  case seenDist =>
    intro v d hv
    by_cases hvs : v = s
    · subst hvs
      rw [hQM, mget]
      simp
    · rw [hd v hvs] at hv
      by_cases hm : v ∈ g.adj.map Prod.fst
      · rw [if_pos hm] at hv
        cases hv
      · rw [if_neg hm] at hv
        cases hv
  case seenReach =>
    intro v hv
    rw [hQM] at hv
    by_cases hvs : s = v
    · subst hvs
      exact Reach.refl
    · rw [mget, if_neg hvs] at hv
      simp [mget] at hv
  case seenPrev =>
    intro v hv
    rw [hQM] at hv
    by_cases hvs : s = v
    · exact Or.inl hvs.symm
    · rw [mget, if_neg hvs] at hv
      simp [mget] at hv
  case distS => exact hds
  case lbNN => exact le_refl 0
  case prevS =>
    rw [hprev s]
    by_cases hm : s ∈ g.adj.map Prod.fst
    · rw [if_pos hm]
      exact Or.inr rfl
    · rw [if_neg hm]
      exact Or.inl rfl

/-! ### Invariant preservation: extraction -/

theorem inv_extract {g : WeightedGraph} {s : String} {lb : ℤ} {st : DState}
    {k : ℤ} {u : String} {Q' : List (ℤ × String)}
    (hinv : LoopInv g s lb st) (hq : extractMin st.Q = some ((k, u), Q')) :
    LoopInv g s k { st with Q := Q', QMapping := mset st.QMapping u false } ∧
    mget st.QMapping u = some true ∧ mget st.dist u = some (some k) ∧
    lb ≤ k ∧ u ∉ Q'.map Prod.snd := by
  have hmem : (k, u) ∈ st.Q := extractMin_mem hq
  obtain ⟨hQMu, hdistu⟩ := hinv.qDist _ hmem
  have hlbk : lb ≤ k := hinv.qLb _ hmem
  obtain ⟨_, _, _, _, hmin⟩ := extractMin_spec hq
  obtain ⟨hnd', hnotmem, hkeep⟩ := extractMin_snd_facts hq hinv.qNodup
  refine ⟨?_, hQMu, hdistu, hlbk, hnotmem⟩
  constructor
  case qLb =>
    intro e he
    exact hmin e (extractMin_sub hq e he)
  case qDist =>
    intro e he
    have he2 : e.2 ≠ u := by
      intro hh
      exact hnotmem (hh ▸ List.mem_map.mpr ⟨e, he, rfl⟩)
    rw [mget_mset_ne _ _ he2]
    exact hinv.qDist e (extractMin_sub hq e he)
  case qNodup => exact hnd'
  case pendingQ =>
    intro v hv
    by_cases hvu : v = u
    · subst hvu
      rw [mget_mset_self] at hv
      cases hv
    · rw [mget_mset_ne _ _ hvu] at hv
      exact hkeep v (hinv.pendingQ v hv) hvu
  case finalized =>
    intro v hv
    by_cases hvu : v = u
    · subst hvu
      exact ⟨k, hdistu, le_refl k⟩
    · rw [mget_mset_ne _ _ hvu] at hv
      obtain ⟨d, hd, hdlb⟩ := hinv.finalized v hv
      exact ⟨d, hd, le_trans hdlb hlbk⟩
  case prevInv =>
    intro v u' hv
    obtain ⟨hQ', harc, w, du, dv, hw, hdu, hdv, heq⟩ := hinv.prevInv v u' hv
    have hu'u : u' ≠ u := by
      intro hh
      rw [hh, hQMu] at hQ'
      cases hQ'
    rw [mget_mset_ne _ _ hu'u]
    exact ⟨hQ', harc, w, du, dv, hw, hdu, hdv, heq⟩
  case seenDist =>
    intro v d hv
    by_cases hvu : v = u
    · subst hvu
      rw [mget_mset_self]
      simp
    · rw [mget_mset_ne _ _ hvu]
      exact hinv.seenDist v d hv
  case seenReach =>
    intro v hv
    by_cases hvu : v = u
    · subst hvu
      exact hinv.seenReach v (by rw [hQMu]; simp)
    · rw [mget_mset_ne _ _ hvu] at hv
      exact hinv.seenReach v hv
  case seenPrev =>
    intro v hv
    by_cases hvu : v = u
    · subst hvu
      exact hinv.seenPrev v (by rw [hQMu]; simp)
    · rw [mget_mset_ne _ _ hvu] at hv
      exact hinv.seenPrev v hv
  case distS => exact hinv.distS
  case lbNN => exact le_trans hinv.lbNN hlbk
  case prevS => exact hinv.prevS

/-! ### Invariant preservation: relaxation -/

theorem inv_relax {g : WeightedGraph} {s : String} {k : ℤ} {st : DState}
    {u : String} (v : String) (O : Option ℤ) (hw : NonnegWeights g)
    (hinv : LoopInv g s k st)
    (hu : mget st.QMapping u = some false)
    (hdu : mget st.dist u = some (some k))
    (harc : g.arcB u v = true)
    (hreach : Reach g s u) :
    LoopInv g s k (relaxNeighbor O g u k st v) ∧
    (∀ x, mget st.QMapping x = some false →
      mget (relaxNeighbor O g u k st v).QMapping x = some false ∧
      mget (relaxNeighbor O g u k st v).dist x = mget st.dist x) ∧
    (∀ x, ¬ Reach g s x →
      mget (relaxNeighbor O g u k st v).prev x = mget st.prev x) := by
  rcases relaxNeighbor_cases O g u k st v with h | ⟨w, hwget, hg, hO, h⟩
  · rw [h]
    exact ⟨hinv, fun x hx => ⟨hx, rfl⟩, fun x _ => rfl⟩
  have hw0 : 0 ≤ w := hw _ (mget_mem hwget)
  have huv : u ≠ v := by
    rintro rfl
    simp only [effDist, hdu, qlt, decide_eq_true_eq] at hg
    omega
  have hvs : v ≠ s := by
    rintro rfl
    have h0k := hinv.lbNN
    simp only [effDist, hinv.distS, qlt, decide_eq_true_eq] at hg
    omega
  have hreachv : Reach g s v := Reach.step hreach harc
  cases hQMv : mget st.QMapping v with
  | some b =>
    cases b with
    | false =>
      exfalso
      obtain ⟨d, hd, hdlb⟩ := hinv.finalized v hQMv
      simp only [effDist, hd, qlt, decide_eq_true_eq] at hg
      omega
    | true =>
      simp only [hQMv] at h
      rw [h]
      refine ⟨?_, ?_, ?_⟩
      · constructor
        case qLb =>
          intro e he
          replace he : e ∈ decreaseKeyQ st.Q v (k + w) := he
          rcases decreaseKeyQ_mem he with ⟨he, _⟩ | ⟨rfl, _⟩
          · exact hinv.qLb e he
          · show k ≤ k + w
            omega
        case qDist =>
          intro e he
          replace he : e ∈ decreaseKeyQ st.Q v (k + w) := he
          rcases decreaseKeyQ_mem he with ⟨he, hne⟩ | ⟨rfl, _⟩
          · refine ⟨(hinv.qDist e he).1, ?_⟩
            show mget (mset st.dist v (some (k + w))) e.2 = some (some e.1)
            rw [mget_mset_ne _ _ hne]
            exact (hinv.qDist e he).2
          · exact ⟨hQMv, mget_mset_self ..⟩
        case qNodup =>
          show ((decreaseKeyQ st.Q v (k + w)).map Prod.snd).Nodup
          rw [decreaseKeyQ_map_snd]
          exact hinv.qNodup
        case pendingQ =>
          intro x hx
          show x ∈ (decreaseKeyQ st.Q v (k + w)).map Prod.snd
          rw [decreaseKeyQ_map_snd]
          exact hinv.pendingQ x hx
        case finalized =>
          intro x hx
          replace hx : mget st.QMapping x = some false := hx
          have hxv : x ≠ v := by
            intro hh
            rw [hh, hQMv] at hx
            cases hx
          obtain ⟨d, hd, hdlb⟩ := hinv.finalized x hx
          refine ⟨d, ?_, hdlb⟩
          show mget (mset st.dist v (some (k + w))) x = some (some d)
          rw [mget_mset_ne _ _ hxv]
          exact hd
        case prevInv =>
          intro x ux hx
          replace hx : mget (mset st.prev v (some u)) x = some (some ux) := hx
          by_cases hxv : x = v
          · subst hxv
            rw [mget_mset_self] at hx
            injection hx with hx
            injection hx with hx
            subst hx
            refine ⟨hu, harc, w, k, k + w, hwget, ?_, mget_mset_self .., rfl⟩
            show mget (mset st.dist x (some (k + w))) u = some (some k)
            rw [mget_mset_ne _ _ huv]
            exact hdu
          · rw [mget_mset_ne _ _ hxv] at hx
            obtain ⟨hQux, harcx, w', du', dv', hw', hdu', hdv', heq⟩ :=
              hinv.prevInv x ux hx
            have huxv : ux ≠ v := by
              intro hh
              rw [hh, hQMv] at hQux
              cases hQux
            refine ⟨hQux, harcx, w', du', dv', hw', ?_, ?_, heq⟩
            · show mget (mset st.dist v (some (k + w))) ux = some (some du')
              rw [mget_mset_ne _ _ huxv]
              exact hdu'
            · show mget (mset st.dist v (some (k + w))) x = some (some dv')
              rw [mget_mset_ne _ _ hxv]
              exact hdv'
        case seenDist =>
          intro x d hx
          replace hx : mget (mset st.dist v (some (k + w))) x = some (some d) := hx
          show mget st.QMapping x ≠ none
          by_cases hxv : x = v
          · subst hxv
            rw [hQMv]
            simp
          · rw [mget_mset_ne _ _ hxv] at hx
            exact hinv.seenDist x d hx
        case seenReach =>
          intro x hx
          exact hinv.seenReach x hx
        case seenPrev =>
          intro x hx
          by_cases hxv : x = v
          · subst hxv
            exact Or.inr ⟨u, mget_mset_self ..⟩
          · rcases hinv.seenPrev x hx with hx' | ⟨u', hu'⟩
            · exact Or.inl hx'
            · refine Or.inr ⟨u', ?_⟩
              show mget (mset st.prev v (some u)) x = some (some u')
              rw [mget_mset_ne _ _ hxv]
              exact hu'
        case distS =>
          show mget (mset st.dist v (some (k + w))) s = some (some 0)
          rw [mget_mset_ne _ _ (Ne.symm hvs)]
          exact hinv.distS
        case lbNN => exact hinv.lbNN
        case prevS =>
          have : mget (mset st.prev v (some u)) s = mget st.prev s :=
            mget_mset_ne _ _ (Ne.symm hvs)
          rcases hinv.prevS with hp | hp
          · exact Or.inl (this.trans hp)
          · exact Or.inr (this.trans hp)
      · intro x hx
        have hxv : x ≠ v := by
          intro hh
          rw [hh, hQMv] at hx
          cases hx
        refine ⟨hx, ?_⟩
        show mget (mset st.dist v (some (k + w))) x = mget st.dist x
        exact mget_mset_ne _ _ hxv
      · intro x hnr
        have hxv : x ≠ v := fun hh => hnr (hh ▸ hreachv)
        show mget (mset st.prev v (some u)) x = mget st.prev x
        exact mget_mset_ne _ _ hxv
  | none =>
    simp only [hQMv] at h
    rw [h]
    have hvnotQ : v ∉ st.Q.map Prod.snd := by
      intro hmem
      obtain ⟨e, he, hes⟩ := List.mem_map.mp hmem
      have he' := (hinv.qDist e he).1
      rw [hes, hQMv] at he'
      cases he'
    refine ⟨?_, ?_, ?_⟩
    · constructor
      case qLb =>
        intro e he
        replace he : e ∈ st.Q ++ [(k + w, v)] := he
        rcases List.mem_append.mp he with he | he
        · exact hinv.qLb e he
        · simp only [List.mem_singleton] at he
          subst he
          show k ≤ k + w
          omega
      case qDist =>
        intro e he
        replace he : e ∈ st.Q ++ [(k + w, v)] := he
        rcases List.mem_append.mp he with he | he
        · have hne : e.2 ≠ v := by
            intro hh
            exact hvnotQ (hh ▸ List.mem_map.mpr ⟨e, he, rfl⟩)
          constructor
          · show mget (mset st.QMapping v true) e.2 = some true
            rw [mget_mset_ne _ _ hne]
            exact (hinv.qDist e he).1
          · show mget (mset st.dist v (some (k + w))) e.2 = some (some e.1)
            rw [mget_mset_ne _ _ hne]
            exact (hinv.qDist e he).2
        · simp only [List.mem_singleton] at he
          subst he
          exact ⟨mget_mset_self .., mget_mset_self ..⟩
      case qNodup =>
        show ((st.Q ++ [(k + w, v)]).map Prod.snd).Nodup
        rw [List.map_append]
        simp only [List.map_cons, List.map_nil]
        rw [List.nodup_append]
        refine ⟨hinv.qNodup, List.nodup_singleton v, ?_⟩
        intro a ha hb
        simp only [List.mem_singleton] at hb
        exact hvnotQ (hb ▸ ha)
      case pendingQ =>
        intro x hx
        replace hx : mget (mset st.QMapping v true) x = some true := hx
        show x ∈ (st.Q ++ [(k + w, v)]).map Prod.snd
        rw [List.map_append]
        by_cases hxv : x = v
        · subst hxv
          simp
        · rw [mget_mset_ne _ _ hxv] at hx
          exact List.mem_append.mpr (Or.inl (hinv.pendingQ x hx))
      case finalized =>
        intro x hx
        replace hx : mget (mset st.QMapping v true) x = some false := hx
        have hxv : x ≠ v := by
          intro hh
          rw [hh, mget_mset_self] at hx
          cases hx
        rw [mget_mset_ne _ _ hxv] at hx
        obtain ⟨d, hd, hdlb⟩ := hinv.finalized x hx
        refine ⟨d, ?_, hdlb⟩
        show mget (mset st.dist v (some (k + w))) x = some (some d)
        rw [mget_mset_ne _ _ hxv]
        exact hd
      case prevInv =>
        intro x ux hx
        replace hx : mget (mset st.prev v (some u)) x = some (some ux) := hx
        by_cases hxv : x = v
        · subst hxv
          rw [mget_mset_self] at hx
          injection hx with hx
          injection hx with hx
          subst hx
          refine ⟨?_, harc, w, k, k + w, hwget, ?_, mget_mset_self .., rfl⟩
          · show mget (mset st.QMapping x true) u = some false
            rw [mget_mset_ne _ _ huv]
            exact hu
          · show mget (mset st.dist x (some (k + w))) u = some (some k)
            rw [mget_mset_ne _ _ huv]
            exact hdu
        · rw [mget_mset_ne _ _ hxv] at hx
          obtain ⟨hQux, harcx, w', du', dv', hw', hdu', hdv', heq⟩ :=
            hinv.prevInv x ux hx
          have huxv : ux ≠ v := by
            intro hh
            rw [hh, hQMv] at hQux
            cases hQux
          refine ⟨?_, harcx, w', du', dv', hw', ?_, ?_, heq⟩
          · show mget (mset st.QMapping v true) ux = some false
            rw [mget_mset_ne _ _ huxv]
            exact hQux
          · show mget (mset st.dist v (some (k + w))) ux = some (some du')
            rw [mget_mset_ne _ _ huxv]
            exact hdu'
          · show mget (mset st.dist v (some (k + w))) x = some (some dv')
            rw [mget_mset_ne _ _ hxv]
            exact hdv'
      case seenDist =>
        intro x d hx
        replace hx : mget (mset st.dist v (some (k + w))) x = some (some d) := hx
        show mget (mset st.QMapping v true) x ≠ none
        by_cases hxv : x = v
        · subst hxv
          rw [mget_mset_self]
          simp
        · rw [mget_mset_ne _ _ hxv] at hx
          rw [mget_mset_ne _ _ hxv]
          exact hinv.seenDist x d hx
      case seenReach =>
        intro x hx
        replace hx : mget (mset st.QMapping v true) x ≠ none := hx
        by_cases hxv : x = v
        · subst hxv
          exact hreachv
        · rw [mget_mset_ne _ _ hxv] at hx
          exact hinv.seenReach x hx
      case seenPrev =>
        intro x hx
        replace hx : mget (mset st.QMapping v true) x ≠ none := hx
        by_cases hxv : x = v
        · subst hxv
          exact Or.inr ⟨u, mget_mset_self ..⟩
        · rw [mget_mset_ne _ _ hxv] at hx
          rcases hinv.seenPrev x hx with hx' | ⟨u', hu'⟩
          · exact Or.inl hx'
          · refine Or.inr ⟨u', ?_⟩
            show mget (mset st.prev v (some u)) x = some (some u')
            rw [mget_mset_ne _ _ hxv]
            exact hu'
      case distS =>
        show mget (mset st.dist v (some (k + w))) s = some (some 0)
        rw [mget_mset_ne _ _ (Ne.symm hvs)]
        exact hinv.distS
      case lbNN => exact hinv.lbNN
      case prevS =>
        have heq : mget (mset st.prev v (some u)) s = mget st.prev s :=
          mget_mset_ne _ _ (Ne.symm hvs)
        rcases hinv.prevS with hp | hp
        · exact Or.inl (heq.trans hp)
        · exact Or.inr (heq.trans hp)
    · intro x hx
      have hxv : x ≠ v := by
        intro hh
        rw [hh, hQMv] at hx
        cases hx
      constructor
      · show mget (mset st.QMapping v true) x = some false
        rw [mget_mset_ne _ _ hxv]
        exact hx
      · show mget (mset st.dist v (some (k + w))) x = mget st.dist x
        exact mget_mset_ne _ _ hxv
    · intro x hnr
      have hxv : x ≠ v := fun hh => hnr (hh ▸ hreachv)
      show mget (mset st.prev v (some u)) x = mget st.prev x
      exact mget_mset_ne _ _ hxv

/-! ### Invariant preservation: neighbor fold and the whole loop -/

theorem neighbors_arc {g : WeightedGraph} {u v : String}
    (h : v ∈ (mget g.adj u).getD []) : g.arcB u v = true := by
  cases hm : mget g.adj u with
  | none => rw [hm] at h; simp at h
  | some l =>
    rw [hm] at h
    simp only [Option.getD_some] at h
    rw [WeightedGraph.arcB, aArc, hm]
    simpa using h

theorem inv_relax_fold {g : WeightedGraph} {s : String} {k : ℤ} {st : DState}
    {u : String} (l : List String) (O : Option ℤ) (hw : NonnegWeights g)
    (hinv : LoopInv g s k st)
    (hu : mget st.QMapping u = some false)
    (hdu : mget st.dist u = some (some k))
    (harcs : ∀ v ∈ l, g.arcB u v = true)
    (hreach : Reach g s u) :
    LoopInv g s k (l.foldl (relaxNeighbor O g u k) st) ∧
    (∀ x, mget st.QMapping x = some false →
      mget (l.foldl (relaxNeighbor O g u k) st).QMapping x = some false ∧
      mget (l.foldl (relaxNeighbor O g u k) st).dist x = mget st.dist x) ∧
    (∀ x, ¬ Reach g s x →
      mget (l.foldl (relaxNeighbor O g u k) st).prev x = mget st.prev x) := by
  induction l generalizing st with
  | nil => exact ⟨hinv, fun x hx => ⟨hx, rfl⟩, fun x _ => rfl⟩
  | cons v t ih =>
    rw [List.foldl_cons]
    obtain ⟨hinv', hfin', hprev'⟩ :=
      inv_relax v O hw hinv hu hdu (harcs v (List.mem_cons_self ..)) hreach
    obtain ⟨hu', hdueq⟩ := hfin' u hu
    have hdu' : mget (relaxNeighbor O g u k st v).dist u = some (some k) :=
      hdueq.trans hdu
    obtain ⟨hI, hF, hP⟩ := ih hinv' hu' hdu'
      (fun v' hv' => harcs v' (List.mem_cons_of_mem _ hv'))
    refine ⟨hI, ?_, ?_⟩
    · intro x hx
      obtain ⟨hx1, hx2⟩ := hfin' x hx
      obtain ⟨hy1, hy2⟩ := hF x hx1
      exact ⟨hy1, hy2.trans hx2⟩
    · intro x hnr
      exact (hP x hnr).trans (hprev' x hnr)

theorem inv_loop {g : WeightedGraph} {s : String} (O : Option ℤ)
    (t : Option String) (hw : NonnegWeights g) (fuel : ℕ) :
    ∀ {lb : ℤ} {st : DState}, LoopInv g s lb st →
    ∃ lb', lb ≤ lb' ∧ LoopInv g s lb' (dijkstraLoop g O t fuel st) ∧
      (∀ x, mget st.QMapping x = some false →
        mget (dijkstraLoop g O t fuel st).QMapping x = some false ∧
        mget (dijkstraLoop g O t fuel st).dist x = mget st.dist x) ∧
      (∀ x, ¬ Reach g s x →
        mget (dijkstraLoop g O t fuel st).prev x = mget st.prev x) := by
  induction fuel with
  | zero =>
    intro lb st hinv
    exact ⟨lb, le_refl lb, hinv, fun x hx => ⟨hx, rfl⟩, fun x _ => rfl⟩
  | succ fuel ih =>
    intro lb st hinv
    cases hq : extractMin st.Q with
    | none =>
      rw [dijkstraLoop_succ_none g O t fuel st hq]
      exact ⟨lb, le_refl lb, hinv, fun x hx => ⟨hx, rfl⟩, fun x _ => rfl⟩
    | some e =>
      obtain ⟨⟨k, u⟩, Q'⟩ := e
      rw [dijkstraLoop_succ_extract g O t fuel st k u Q' hq]
      obtain ⟨hinv1, hQMu, hdistu, hlbk, _⟩ := inv_extract hinv hq
      have hpreserve1 : ∀ x, mget st.QMapping x = some false →
          mget (mset st.QMapping u false) x = some false ∧
          mget st.dist x = mget st.dist x := by
        intro x hx
        have hxu : x ≠ u := by
          intro hh
          rw [hh, hQMu] at hx
          cases hx
        exact ⟨by rw [mget_mset_ne _ _ hxu]; exact hx, rfl⟩
      by_cases ht : t = some u
      · rw [if_pos ht]
        exact ⟨k, hlbk, hinv1,
          fun x hx => ⟨(hpreserve1 x hx).1, rfl⟩, fun x _ => rfl⟩
      · rw [if_neg ht]
        have hQMu1 : mget (mset st.QMapping u false) u = some false :=
          mget_mset_self ..
        have hreachu : Reach g s u :=
          hinv.seenReach u (by rw [hQMu]; simp)
        obtain ⟨hinv2, hfin2, hprev2⟩ :=
          inv_relax_fold ((mget g.adj u).getD []) O hw hinv1 hQMu1 hdistu
            (fun v hv => neighbors_arc hv) hreachu
        obtain ⟨lb', hlb', hinv3, hfin3, hprev3⟩ := ih hinv2
        refine ⟨lb', le_trans hlbk hlb', hinv3, ?_, ?_⟩
        · intro x hx
          obtain ⟨ha1, _⟩ := hpreserve1 x hx
          obtain ⟨hb1, hb2⟩ := hfin2 x ha1
          obtain ⟨hc1, hc2⟩ := hfin3 x hb1
          exact ⟨hc1, hc2.trans hb2⟩
        · intro x hnr
          exact (hprev3 x hnr).trans (hprev2 x hnr)

/-! ### Small traceLoop evaluation lemmas -/

theorem traceLoop_none (prev : List (String × Option String)) (fuel : ℕ)
    (path : List String) : traceLoop prev fuel none path = path := by
  cases fuel <;> rfl

theorem traceLoop_some (prev : List (String × Option String)) (fuel : ℕ)
    (e : String) (path : List String) :
    traceLoop prev (fuel + 1) (some e) path =
      traceLoop prev fuel (mget prev e).join (e :: path) := rfl

/-! ### Claim C9 -/

/-- C9: after `Dijkstra(G, [s])` completes on a weighted graph with
non-negative weights, every node `v` other than the source that carries a
finite recorded distance `d` has a recorded predecessor `u` with
`d = dist[u] + weight(u, v)`, where `weight(u, v)` is exactly what the
`weight` method returns (it does not throw, the arc exists). -/
theorem dist_eq_prev_dist_add_weight (g : WeightedGraph) (s : String)
    (hw : NonnegWeights g) (v : String) (d : ℤ)
    (hv : mget (DijkstraFull g s none).1 v = some (some d)) (hvs : v ≠ s) :
    ∃ u, mget (DijkstraFull g s none).2 v = some (some u) ∧
      ∃ w du : ℤ, g.weight u v = some (some w) ∧
        mget (DijkstraFull g s none).1 u = some (some du) ∧ d = du + w := by
  obtain ⟨lb', _, hinv, _, _⟩ :=
    inv_loop (g := g) (s := s) none none hw (dijkstraFuel g) (inv_init g s)
  replace hv : mget (dijkstraLoop g none none (dijkstraFuel g)
      (initState g s)).dist v = some (some d) := hv
  have hseen := hinv.seenDist v d hv
  rcases hinv.seenPrev v hseen with rfl | ⟨u, hprev⟩
  · exact absurd rfl hvs
  · obtain ⟨hQu, harc, w, du, dv, hwget, hdu, hdv, heq⟩ := hinv.prevInv v u hprev
    rw [hv] at hdv
    injection hdv with hdv
    injection hdv with hdv
    refine ⟨u, hprev, w, du, ?_, hdu, by omega⟩
    rw [WeightedGraph.weight, if_pos harc, hwget]

/-- C9 witness: on the concrete scenario graph with source A, the node B has
finite distance 1 and the equation holds through its predecessor. -/
theorem dist_eq_prev_dist_add_weight_witness :
    ∃ u, mget (DijkstraFull gABC "A" none).2 "B" = some (some u) ∧
      ∃ w du : ℤ, gABC.weight u "B" = some (some w) ∧
        mget (DijkstraFull gABC "A" none).1 u = some (some du) ∧ 1 = du + w :=
  dist_eq_prev_dist_add_weight gABC "A"
    (show ∀ p ∈ gABC.weights, (0 : ℤ) ≤ p.2 by decide) "B" 1 (by decide) (by decide)

/-! ### Claim C2: amended theorem -/

/-- C2 (amended): for every weighted graph with non-negative weights, every
source `s`, and every target `t` that is a node of the graph but not
reachable from `s`, `Dijkstra(G, [s, t])` returns the empty sequence.  (A
target that is not a node of the graph instead comes back as the singleton
`[t]`: its predecessor entry is `undefined`, not the sentinel, so the
`tracePath` guard lets the walk start.) -/
theorem dijkstraPath_unreachable_target_empty (g : WeightedGraph)
    (s t : String) (hw : NonnegWeights g) (ht : t ∈ g.nodes)
    (hnr : ¬ Reach g s t) : DijkstraPath g s t none = [] := by
  have hts : t ≠ s := fun hh => hnr (hh ▸ Reach.refl)
  have hpt : mget (dijkstraLoop g none (some t) (dijkstraFuel g)
      (initState g s)).prev t = some none := by
    obtain ⟨lb', _, _, _, hprev⟩ :=
      inv_loop (g := g) (s := s) none (some t) hw (dijkstraFuel g) (inv_init g s)
    rw [hprev t hnr, initState_prev,
      if_pos (show t ∈ g.adj.map Prod.fst from ht)]
  show tracePath _ (dijkstraLoop g none (some t) (dijkstraFuel g)
      (initState g s)).prev t (some s) = []
  rw [tracePath, hpt]
  simp [hts]

/-- C2 witness: on the concrete scenario graph extended with an isolated
node D, the query from A to D yields the empty path. -/
theorem dijkstraPath_unreachable_target_empty_witness :
    DijkstraPath (gABC.addNode "D") "A" "D" none = [] := by
  have hnr : ¬ Reach (gABC.addNode "D") "A" "D" := by
    intro h
    have hsub : ∀ v, Reach (gABC.addNode "D") "A" v →
        v = "A" ∨ v = "B" ∨ v = "C" := by
      intro v hv
      induction hv with
      | refl => exact Or.inl rfl
      | step hr harc ih =>
        obtain ⟨p, hp, hpu, hv2⟩ := aArc_mem harc
        have hadj : (gABC.addNode "D").adj =
            [("A", ["B", "C"]), ("B", ["C"]), ("C", []), ("D", [])] := by decide
        rw [hadj] at hp
        simp only [List.mem_cons, List.not_mem_nil, or_false] at hp
        rcases hp with hp | hp | hp | hp <;> subst hp <;> simp_all
    rcases hsub "D" h with h' | h' | h' <;> simp at h'
  exact dijkstraPath_unreachable_target_empty (gABC.addNode "D") "A" "D"
    (show ∀ p ∈ (gABC.addNode "D").weights, (0 : ℤ) ≤ p.2 by decide)
    (by decide) hnr

/-! ### Claim C1: amended theorem -/

/-- C1 (amended): for every weighted graph `G` and every node `s` of `G`
whose identifier is truthy (a non-empty string; the numbers 0 and NaN and
the empty string are falsy in JavaScript), `Dijkstra(G, [s, s])` — that is,
`tracePath(prev, s, s)` on the predecessor map of the immediately-breaking
run — returns the one-element path `[s]`.  For a falsy source the guard
`source && e === source` fails and the result degenerates to the empty
path. -/
theorem dijkstraPath_source_eq_target (g : WeightedGraph) (s : String)
    (hs : s ∈ g.nodes) (hne : s ≠ "") : DijkstraPath g s s none = [s] := by
  have hq : extractMin (initState g s).Q = some ((0, s), []) := by
    rw [initState_Q]
    rfl
  obtain ⟨n, hn⟩ : ∃ n, dijkstraFuel g = n + 1 :=
    ⟨1 + g.adj.foldr (fun p acc => p.2.length + acc) 0, by rw [dijkstraFuel]; omega⟩
  have hps : mget (initState g s).prev s = some none := by
    rw [initState_prev, if_pos (show s ∈ g.adj.map Prod.fst from hs)]
  show tracePath ((dijkstraLoop g none (some s) (dijkstraFuel g)
      (initState g s)).prev.length + 1)
    (dijkstraLoop g none (some s) (dijkstraFuel g) (initState g s)).prev s
    (some s) = [s]
  rw [hn, dijkstraLoop_succ_extract g none (some s) n (initState g s) 0 s [] hq,
    if_pos rfl]
  show tracePath ((initState g s).prev.length + 1) (initState g s).prev s
    (some s) = [s]
  rw [tracePath, hps]
  simp only [hne, ne_eq, not_false_eq_true, decide_True,
    Bool.and_true, Bool.true_and, Bool.false_or, if_true, decide_eq_true_eq]
  rw [traceLoop_some, hps]
  show traceLoop (initState g s).prev (initState g s).prev.length none [s] = [s]
  exact traceLoop_none _ _ _

/-- C1 witness: on the concrete scenario graph, the query from A to A yields
the one-element path. -/
theorem dijkstraPath_source_eq_target_witness :
    DijkstraPath gABC "A" "A" none = ["A"] :=
  dijkstraPath_source_eq_target gABC "A" (by decide) (by decide)

/-! ### Bounds established by a relaxation pass (no options) -/

theorem effDist_some {d : List (String × Option ℤ)} {x : String} {q : ℤ}
    (h : effDist d x = some q) : mget d x = some (some q) := by
  rw [effDist_eq_join] at h
  cases hm : mget d x with
  | none => rw [hm] at h; simp at h
  | some o =>
    rw [hm] at h
    cases o with
    | none => simp at h
    | some q' =>
      simp only [Option.join] at h
      simp at h
      rw [h]

theorem distEvol_le {d d' : List (String × Option ℤ)} (h : distEvol d d')
    {x : String} {dx : ℤ} (hx : mget d x = some (some dx)) :
    ∃ dx', mget d' x = some (some dx') ∧ dx' ≤ dx := by
  rcases h x with hx' | ⟨q, hq, hlt⟩
  · exact ⟨dx, hx'.trans hx, le_refl dx⟩
  · refine ⟨q, hq, ?_⟩
    simp only [effDist, hx, qlt, decide_eq_true_eq] at hlt
    omega

theorem relaxNeighbor_bound (g : WeightedGraph) (u : String) (k : ℤ)
    (st : DState) (v : String) {w : ℤ}
    (hwget : mget g.weights (wkey u v) = some w) :
    ∃ dv, mget (relaxNeighbor none g u k st v).dist v = some (some dv) ∧
      dv ≤ k + w := by
  rw [relaxNeighbor, hwget]
  cases hg : qlt (k + w) (effDist st.dist v) with
  | true =>
    simp only [hg, if_true, if_false, Bool.false_eq_true]
    refine ⟨k + w, ?_, le_refl _⟩
    show mget (mset st.dist v (some (k + w))) v = some (some (k + w))
    exact mget_mset_self ..
  | false =>
    simp only [hg, if_false, Bool.false_eq_true]
    cases he : effDist st.dist v with
    | none =>
      rw [he] at hg
      simp [qlt] at hg
    | some dv =>
      rw [he] at hg
      simp only [qlt, decide_eq_false_iff_not] at hg
      exact ⟨dv, effDist_some he, by omega⟩

theorem fold_relax_bound (g : WeightedGraph) (u : String) (k : ℤ)
    (l : List String) (st : DState) :
    ∀ x ∈ l, ∀ w : ℤ, mget g.weights (wkey u x) = some w →
      ∃ dx, mget (l.foldl (relaxNeighbor none g u k) st).dist x =
        some (some dx) ∧ dx ≤ k + w := by
  induction l generalizing st with
  | nil => intro x hx; cases hx
  | cons v t ih =>
    intro x hx w hwget
    rw [List.foldl_cons]
    rcases List.mem_cons.mp hx with rfl | hx
    · obtain ⟨dv, hdv, hle⟩ := relaxNeighbor_bound g u k st x hwget
      have hev : distEvol (relaxNeighbor none g u k st x).dist
          (t.foldl (relaxNeighbor none g u k)
            (relaxNeighbor none g u k st x)).dist :=
        foldl_relax_distEvol none g u k t _
      obtain ⟨dx', hdx', hle'⟩ := distEvol_le hev hdv
      exact ⟨dx', hdx', le_trans hle' hle⟩
    · exact ih _ x hx w hwget

/-! ### Every finalized node has relaxed all its neighbors (option-free runs) -/

/-- On an option-free run, each neighbor `x` of a finalized node `u` carries
a finite distance bounded by `dist[u] + w(u, x)`. -/
def RelaxedInv (g : WeightedGraph) (st : DState) : Prop :=
  ∀ u x : String, ∀ w : ℤ, mget st.QMapping u = some false →
    g.arcB u x = true → mget g.weights (wkey u x) = some w →
    ∃ du dx : ℤ, mget st.dist u = some (some du) ∧
      mget st.dist x = some (some dx) ∧ dx ≤ du + w

theorem relax_QM_false_back {O : Option ℤ} {g : WeightedGraph} {u : String}
    {k : ℤ} {st : DState} {v x : String}
    (h : mget (relaxNeighbor O g u k st v).QMapping x = some false) :
    mget st.QMapping x = some false := by
  rcases relaxNeighbor_cases O g u k st v with he | ⟨w, hwget, hg, hO, he⟩
  · rwa [he] at h
  · rw [he] at h
    cases hQMv : mget st.QMapping v with
    | some b =>
      cases b with
      | true => simp only [hQMv] at h; exact h
      | false =>
        simp only [hQMv] at h
        by_cases hxv : x = v
        · subst hxv
          rw [mget_mset_self] at h
          cases h
        · rwa [mget_mset_ne _ _ hxv] at h
    | none =>
      simp only [hQMv] at h
      by_cases hxv : x = v
      · subst hxv
        rw [mget_mset_self] at h
        cases h
      · rwa [mget_mset_ne _ _ hxv] at h

theorem fold_QM_false_back {O : Option ℤ} {g : WeightedGraph} {u : String}
    {k : ℤ} {l : List String} {st : DState} {x : String}
    (h : mget (l.foldl (relaxNeighbor O g u k) st).QMapping x = some false) :
    mget st.QMapping x = some false := by
  induction l generalizing st with
  | nil => exact h
  | cons v t ih => exact relax_QM_false_back (ih h)

theorem relaxedInv_init (g : WeightedGraph) (s : String) :
    RelaxedInv g (initState g s) := by
  intro u x w hu _ _
  rw [initState_QMapping] at hu
  by_cases hsu : s = u
  · rw [mget, if_pos hsu] at hu
    cases hu
  · rw [mget, if_neg hsu] at hu
    cases hu

theorem relaxedInv_loop {g : WeightedGraph} {s : String}
    (hw : NonnegWeights g) (fuel : ℕ) :
    ∀ {lb : ℤ} {st : DState}, LoopInv g s lb st → RelaxedInv g st →
      RelaxedInv g (dijkstraLoop g none none fuel st) := by
  induction fuel with
  | zero => intro lb st _ hrel; exact hrel
  | succ fuel ih =>
    intro lb st hinv hrel
    cases hq : extractMin st.Q with
    | none =>
      rw [dijkstraLoop_succ_none g none none fuel st hq]
      exact hrel
    | some e =>
      obtain ⟨⟨k, u⟩, Q'⟩ := e
      rw [dijkstraLoop_succ_extract g none none fuel st k u Q' hq,
        if_neg (show (none : Option String) ≠ some u by simp)]
      obtain ⟨hinv1, hQMu, hdistu, hlbk, _⟩ := inv_extract hinv hq
      have hQMu1 : mget (mset st.QMapping u false) u = some false :=
        mget_mset_self ..
      have hreachu : Reach g s u := hinv.seenReach u (by rw [hQMu]; simp)
      obtain ⟨hinv2, hfin2, _⟩ :=
        inv_relax_fold ((mget g.adj u).getD []) none hw hinv1 hQMu1 hdistu
          (fun v hv => neighbors_arc hv) hreachu
      refine ih hinv2 ?_
      intro u' x w hQ harc hwget
      have hQ1 := fold_QM_false_back hQ
      by_cases hu'u : u' = u
      · subst hu'u
        obtain ⟨sl, hsl, hmem⟩ := arcB_mget harc
        have hxl : x ∈ (mget g.adj u').getD [] := by
          rw [hsl]
          exact hmem
        obtain ⟨dx, hdx, hle⟩ :=
          fold_relax_bound g u' k ((mget g.adj u').getD [])
            { st with Q := Q', QMapping := mset st.QMapping u' false }
            x hxl w hwget
        obtain ⟨_, hdu2⟩ := hfin2 u' hQMu1
        exact ⟨k, dx, hdu2.trans hdistu, hdx, hle⟩
      · have hQ0 : mget st.QMapping u' = some false := by
          rwa [mget_mset_ne _ _ hu'u] at hQ1
        obtain ⟨du, dx, hdu, hdx, hle⟩ := hrel u' x w hQ0 harc hwget
        obtain ⟨_, hdu2⟩ := hfin2 u' hQ1
        have hev : distEvol st.dist
            (((mget g.adj u).getD []).foldl (relaxNeighbor none g u k)
              { st with Q := Q', QMapping := mset st.QMapping u false }).dist :=
          foldl_relax_distEvol none g u k _ _
        obtain ⟨dx', hdx', hle'⟩ := distEvol_le hev hdx
        exact ⟨du, dx', hdu2.trans hdu, hdx', by omega⟩

/-! ### Liveness: at queue exhaustion every reachable node is finalized -/

theorem reached_finalized {g : WeightedGraph} {s : String} {lb : ℤ}
    {st : DState} (hinv : LoopInv g s lb st) (hrel : RelaxedInv g st)
    (hwa : ∀ u x, g.arcB u x = true → (mget g.weights (wkey u x)).isSome = true)
    (hempty : st.Q = []) :
    ∀ v, Reach g s v → mget st.QMapping v = some false := by
  have hnopending : ∀ v, mget st.QMapping v ≠ some true := by
    intro v hv
    have hmem := hinv.pendingQ v hv
    rw [hempty] at hmem
    simp at hmem
  intro v hv
  induction hv with
  | refl =>
    have hseen := hinv.seenDist s 0 hinv.distS
    cases hQ : mget st.QMapping s with
    | none => exact absurd hQ hseen
    | some b =>
      cases b with
      | true => exact absurd hQ (hnopending s)
      | false => rfl
  | @step u x hr harc ih =>
    obtain ⟨w, hwget⟩ := Option.isSome_iff_exists.mp (hwa u x harc)
    obtain ⟨du, dx, _, hdx, _⟩ := hrel u x w ih harc hwget
    have hseen := hinv.seenDist x dx hdx
    cases hQ : mget st.QMapping x with
    | none => exact absurd hQ hseen
    | some b =>
      cases b with
      | true => exact absurd hQ (hnopending x)
      | false => rfl

/-! ### The fuel bound: the option-free full run drains its queue -/

def adjMembers (g : WeightedGraph) : List String :=
  g.adj.foldr (fun p acc => p.2 ++ acc) []

theorem adjMembers_length (g : WeightedGraph) :
    (adjMembers g).length = g.adj.foldr (fun p acc => p.2.length + acc) 0 := by
  rw [adjMembers]
  induction g.adj with
  | nil => rfl
  | cons p t ih => simp [List.foldr_cons, ih]

theorem members_mem_flatten :
    ∀ (adj : List (String × List String)) (p : String × List String),
      p ∈ adj → ∀ v ∈ p.2, v ∈ adj.foldr (fun q acc => q.2 ++ acc) [] := by
  intro adj
  induction adj with
  | nil => intro p hp; cases hp
  | cons q t ih =>
    intro p hp v hv
    rw [List.foldr_cons]
    rcases List.mem_cons.mp hp with rfl | hp
    · exact List.mem_append.mpr (Or.inl hv)
    · exact List.mem_append.mpr (Or.inr (ih p hp v hv))

theorem adjMembers_mem {g : WeightedGraph} {u : String} {l : List String}
    (h : mget g.adj u = some l) : ∀ v ∈ l, v ∈ adjMembers g :=
  fun v hv => members_mem_flatten g.adj (u, l) (mget_mem h) v hv

def unseenCount (U : List String) (m : List (String × Bool)) : ℕ :=
  (U.filter (fun v => (mget m v).isNone)).length

theorem filter_length_mono {p q : String → Bool} :
    ∀ U : List String, (∀ x ∈ U, p x = true → q x = true) →
      (U.filter p).length ≤ (U.filter q).length := by
  intro U
  induction U with
  | nil => intro _; exact le_refl 0
  | cons a t ih =>
    intro h
    rw [List.filter_cons, List.filter_cons]
    cases hp : p a with
    | true =>
      rw [h a (List.mem_cons_self ..) hp]
      simpa using ih fun x hx => h x (List.mem_cons_of_mem _ hx)
    | false =>
      cases hq : q a with
      | true =>
        simp only [if_true, if_false, Bool.false_eq_true, List.length_cons]
        exact le_trans (ih fun x hx => h x (List.mem_cons_of_mem _ hx))
          (Nat.le_succ _)
      | false =>
        simp only [if_false, Bool.false_eq_true]
        exact ih fun x hx => h x (List.mem_cons_of_mem _ hx)

theorem unseen_mset_true (U : List String) (m : List (String × Bool))
    (v : String) (hv : v ∈ U) (hnone : mget m v = none) :
    unseenCount U (mset m v true) + 1 ≤ unseenCount U m := by
  induction U with
  | nil => cases hv
  | cons a t ih =>
    rw [unseenCount, List.filter_cons, unseenCount, List.filter_cons]
    by_cases hav : a = v
    · subst hav
      rw [mget_mset_self]
      simp only [Option.isNone_some, if_false, Bool.false_eq_true, hnone,
        Option.isNone_none, if_true, List.length_cons]
      have hmono : (t.filter (fun x => (mget (mset m a true) x).isNone)).length ≤
          (t.filter (fun x => (mget m x).isNone)).length := by
        refine filter_length_mono t ?_
        intro x _ hx
        by_cases hxa : x = a
        · subst hxa
          rw [mget_mset_self] at hx
          cases hx
        · rwa [mget_mset_ne _ _ hxa] at hx
      omega
    · have hv' : v ∈ t := by
        rcases List.mem_cons.mp hv with rfl | hv'
        · exact absurd rfl hav
        · exact hv'
      rw [mget_mset_ne _ _ hav]
      have := ih hv'
      rw [unseenCount, unseenCount] at this
      cases ha : (mget m a).isNone <;> simp only [if_true, if_false,
        Bool.false_eq_true, List.length_cons] <;> omega

theorem unseen_mset_noflip (U : List String) (m : List (String × Bool))
    (v : String) (b b' : Bool) (h : mget m v = some b) :
    unseenCount U (mset m v b') = unseenCount U m := by
  rw [unseenCount, unseenCount]
  congr 1
  refine List.filter_congr ?_
  intro x _
  by_cases hxv : x = v
  · subst hxv
    rw [mget_mset_self, h]
    rfl
  · rw [mget_mset_ne _ _ hxv]

theorem unseen_le (U : List String) (m : List (String × Bool)) :
    unseenCount U m ≤ U.length := List.length_filter_le _ _

theorem relax_measure {g : WeightedGraph} {s : String} {k : ℤ} {st : DState}
    (u v : String) (hw : NonnegWeights g) (hinv : LoopInv g s k st)
    (hvU : v ∈ adjMembers g) :
    (relaxNeighbor none g u k st v).Q.length +
      unseenCount (adjMembers g) (relaxNeighbor none g u k st v).QMapping ≤
    st.Q.length + unseenCount (adjMembers g) st.QMapping := by
  rcases relaxNeighbor_cases none g u k st v with h | ⟨w, hwget, hg, hO, h⟩
  · rw [h]
  · have hw0 : 0 ≤ w := hw _ (mget_mem hwget)
    cases hQMv : mget st.QMapping v with
    | some b =>
      cases b with
      | false =>
        exfalso
        obtain ⟨d, hd, hdlb⟩ := hinv.finalized v hQMv
        simp only [effDist, hd, qlt, decide_eq_true_eq] at hg
        omega
      | true =>
        simp only [hQMv] at h
        rw [h]
        show (decreaseKeyQ st.Q v (k + w)).length +
          unseenCount (adjMembers g) st.QMapping ≤
          st.Q.length + unseenCount (adjMembers g) st.QMapping
        rw [decreaseKeyQ, List.length_map]
    | none =>
      simp only [hQMv] at h
      rw [h]
      show (st.Q ++ [(k + w, v)]).length +
        unseenCount (adjMembers g) (mset st.QMapping v true) ≤
        st.Q.length + unseenCount (adjMembers g) st.QMapping
      rw [List.length_append]
      have hflip := unseen_mset_true (adjMembers g) st.QMapping v hvU hQMv
      simp only [List.length_cons, List.length_nil]
      omega

theorem fold_measure {g : WeightedGraph} {s : String} {k : ℤ} {st : DState}
    {u : String} (l : List String) (hw : NonnegWeights g)
    (hinv : LoopInv g s k st) (hu : mget st.QMapping u = some false)
    (hdu : mget st.dist u = some (some k))
    (harcs : ∀ v ∈ l, g.arcB u v = true) (hreach : Reach g s u)
    (hlU : ∀ v ∈ l, v ∈ adjMembers g) :
    (l.foldl (relaxNeighbor none g u k) st).Q.length +
      unseenCount (adjMembers g)
        (l.foldl (relaxNeighbor none g u k) st).QMapping ≤
    st.Q.length + unseenCount (adjMembers g) st.QMapping := by
  induction l generalizing st with
  | nil => exact le_refl _
  | cons v t ih =>
    rw [List.foldl_cons]
    obtain ⟨hinv', hfin', _⟩ :=
      inv_relax v none hw hinv hu hdu (harcs v (List.mem_cons_self ..)) hreach
    obtain ⟨hu', hdueq⟩ := hfin' u hu
    have hstep := relax_measure u v hw hinv (hlU v (List.mem_cons_self ..))
    have hrest := ih hinv' hu' (hdueq.trans hdu)
      (fun v' hv' => harcs v' (List.mem_cons_of_mem _ hv'))
      (fun v' hv' => hlU v' (List.mem_cons_of_mem _ hv'))
    omega

theorem loop_empties {g : WeightedGraph} {s : String} (hw : NonnegWeights g) :
    ∀ (n : ℕ) {lb : ℤ} {st : DState}, LoopInv g s lb st →
      st.Q.length + unseenCount (adjMembers g) st.QMapping ≤ n →
      (dijkstraLoop g none none n st).Q = [] := by
  intro n
  induction n with
  | zero =>
    intro lb st hinv hmu
    show st.Q = []
    have hlen : st.Q.length = 0 := by omega
    exact List.length_eq_zero.mp hlen
  | succ n ih =>
    intro lb st hinv hmu
    cases hq : extractMin st.Q with
    | none =>
      rw [dijkstraLoop_succ_none g none none n st hq]
      exact extractMin_eq_none hq
    | some e =>
      obtain ⟨⟨k, u⟩, Q'⟩ := e
      rw [dijkstraLoop_succ_extract g none none n st k u Q' hq,
        if_neg (show (none : Option String) ≠ some u by simp)]
      obtain ⟨hinv1, hQMu, hdistu, _, _⟩ := inv_extract hinv hq
      obtain ⟨l1, l2, hQeq, hQ'eq, _⟩ := extractMin_spec hq
      have hlen : Q'.length + 1 = st.Q.length := by
        rw [hQeq, hQ'eq]
        simp only [List.length_append, List.length_cons]
        omega
      have hcount : unseenCount (adjMembers g) (mset st.QMapping u false) =
          unseenCount (adjMembers g) st.QMapping :=
        unseen_mset_noflip _ _ u true false hQMu
      have hQMu1 : mget (mset st.QMapping u false) u = some false :=
        mget_mset_self ..
      have hreachu : Reach g s u := hinv.seenReach u (by rw [hQMu]; simp)
      have harcs : ∀ v ∈ (mget g.adj u).getD [], g.arcB u v = true :=
        fun v hv => neighbors_arc hv
      have hlU : ∀ v ∈ (mget g.adj u).getD [], v ∈ adjMembers g := by
        intro v hv
        cases hm : mget g.adj u with
        | none => rw [hm] at hv; simp at hv
        | some l =>
          rw [hm] at hv
          simp only [Option.getD_some] at hv
          exact adjMembers_mem hm v hv
      have hfold := fold_measure ((mget g.adj u).getD [])
        hw hinv1 hQMu1 hdistu harcs hreachu hlU
      obtain ⟨hinv2, _, _⟩ :=
        inv_relax_fold ((mget g.adj u).getD []) none hw hinv1 hQMu1 hdistu
          harcs hreachu
      refine ih hinv2 ?_
      have he1 : ({ st with Q := Q', QMapping := mset st.QMapping u false }
          : DState).Q.length = Q'.length := rfl
      have he2 : unseenCount (adjMembers g)
          ({ st with Q := Q', QMapping := mset st.QMapping u false }
            : DState).QMapping =
          unseenCount (adjMembers g) st.QMapping := hcount
      omega

theorem fuel_suffices (g : WeightedGraph) (s : String) (hw : NonnegWeights g) :
    (dijkstraLoop g none none (dijkstraFuel g) (initState g s)).Q = [] := by
  refine loop_empties hw (dijkstraFuel g) (inv_init g s) ?_
  have h1 : (initState g s).Q.length = 1 := by rw [initState_Q]; rfl
  have h2 : unseenCount (adjMembers g) (initState g s).QMapping ≤
      (adjMembers g).length := unseen_le _ _
  have h3 := adjMembers_length g
  rw [dijkstraFuel]
  omega

/-! ### Correspondence between the targeted and the full run -/

theorem fold_QM_not_false {O : Option ℤ} {g : WeightedGraph} {u : String}
    {k : ℤ} {l : List String} {st : DState} {x : String}
    (h : mget st.QMapping x ≠ some false) :
    mget (l.foldl (relaxNeighbor O g u k) st).QMapping x ≠ some false :=
  fun hc => h (fold_QM_false_back hc)

theorem loop_target_corr {g : WeightedGraph} {s v : String}
    (hw : NonnegWeights g) :
    ∀ (fuel : ℕ) {lb : ℤ} {st : DState}, LoopInv g s lb st →
      mget st.QMapping v ≠ some false →
      mget (dijkstraLoop g none none fuel st).QMapping v = some false →
      ∃ lbT, LoopInv g s lbT (dijkstraLoop g none (some v) fuel st) ∧
        mget (dijkstraLoop g none (some v) fuel st).QMapping v = some false ∧
        mget (dijkstraLoop g none (some v) fuel st).dist v =
          mget (dijkstraLoop g none none fuel st).dist v := by
  intro fuel
  induction fuel with
  | zero =>
    intro lb st _ hne hF
    exact absurd hF hne
  | succ fuel ih =>
    intro lb st hinv hne hF
    cases hq : extractMin st.Q with
    | none =>
      rw [dijkstraLoop_succ_none g none none fuel st hq] at hF
      exact absurd hF hne
    | some e =>
      obtain ⟨⟨k, u⟩, Q'⟩ := e
      obtain ⟨hinv1, hQMu, hdistu, hlbk, _⟩ := inv_extract hinv hq
      rw [dijkstraLoop_succ_extract g none none fuel st k u Q' hq,
        if_neg (show (none : Option String) ≠ some u by simp)] at hF ⊢
      rw [dijkstraLoop_succ_extract g none (some v) fuel st k u Q' hq]
      have hQMu1 : mget (mset st.QMapping u false) u = some false :=
        mget_mset_self ..
      have hreachu : Reach g s u := hinv.seenReach u (by rw [hQMu]; simp)
      have harcs : ∀ x ∈ (mget g.adj u).getD [], g.arcB u x = true :=
        fun x hx => neighbors_arc hx
      by_cases hvu : v = u
      · subst hvu
        rw [if_pos rfl]
        refine ⟨k, hinv1, mget_mset_self .., ?_⟩
        obtain ⟨hinv2, hfin2, _⟩ :=
          inv_relax_fold ((mget g.adj v).getD []) none hw hinv1 hQMu1 hdistu
            harcs hreachu
        obtain ⟨hu2, hd2⟩ := hfin2 v hQMu1
        obtain ⟨lb3, _, _, hfin3, _⟩ := inv_loop none none hw fuel hinv2
        obtain ⟨hu3, hd3⟩ := hfin3 v hu2
        exact (hd3.trans hd2).symm
      · rw [if_neg (fun hh => hvu (Option.some.inj hh))]
        have hne1 : mget (mset st.QMapping u false) v ≠ some false := by
          rw [mget_mset_ne _ _ hvu]
          exact hne
        have hne2 : mget (((mget g.adj u).getD []).foldl
            (relaxNeighbor none g u k)
            { st with Q := Q', QMapping := mset st.QMapping u false }).QMapping
            v ≠ some false := fold_QM_not_false hne1
        obtain ⟨hinv2, _, _⟩ :=
          inv_relax_fold ((mget g.adj u).getD []) none hw hinv1 hQMu1 hdistu
            harcs hreachu
        exact ih hinv2 hne2 hF

/-! ### The predecessor map is acyclic: a rank decreases along `prev` -/

def PrevRank (st : DState) : Prop :=
  ∃ r : String → ℕ, ∀ x ux, mget st.prev x = some (some ux) → r ux < r x

theorem prevRank_init (g : WeightedGraph) (s : String) :
    PrevRank (initState g s) := by
  refine ⟨fun _ => 0, ?_⟩
  intro x ux hx
  rw [initState_prev] at hx
  by_cases hm : x ∈ g.adj.map Prod.fst
  · rw [if_pos hm] at hx
    cases hx
  · rw [if_neg hm] at hx
    cases hx

theorem relax_prevRank {g : WeightedGraph} {s : String} {k : ℤ} {st : DState}
    {u : String} (v : String) (O : Option ℤ) (hw : NonnegWeights g)
    (hinv : LoopInv g s k st) (hu : mget st.QMapping u = some false)
    (hpr : PrevRank st) : PrevRank (relaxNeighbor O g u k st v) := by
  rcases relaxNeighbor_cases O g u k st v with h | ⟨w, hwget, hg, hO, h⟩
  · rw [h]
    exact hpr
  · obtain ⟨r, hr⟩ := hpr
    have hvnotfin : mget st.QMapping v ≠ some false := by
      intro hQMv
      obtain ⟨d, hd, hdlb⟩ := hinv.finalized v hQMv
      have hw0 : 0 ≤ w := hw _ (mget_mem hwget)
      simp only [effDist, hd, qlt, decide_eq_true_eq] at hg
      omega
    have huv : u ≠ v := fun hh => hvnotfin (hh ▸ hu)
    rw [h]
    refine ⟨fun y => if y = v then r u + 1 else r y, ?_⟩
    intro x ux hx
    replace hx : mget (mset st.prev v (some u)) x = some (some ux) := hx
    by_cases hxv : x = v
    · subst hxv
      rw [mget_mset_self] at hx
      injection hx with hx
      injection hx with hx
      subst hx
      show (if u = x then r u + 1 else r u) < (if x = x then r u + 1 else r x)
      rw [if_neg huv, if_pos rfl]
      omega
    · rw [mget_mset_ne _ _ hxv] at hx
      have hold := hr x ux hx
      have huxv : ux ≠ v := by
        intro hh
        have hfin := (hinv.prevInv x ux hx).1
        rw [hh] at hfin
        exact hvnotfin hfin
      simp only [if_neg hxv, if_neg huxv]
      exact hold

theorem fold_prevRank {g : WeightedGraph} {s : String} {k : ℤ} {st : DState}
    {u : String} (l : List String) (O : Option ℤ) (hw : NonnegWeights g)
    (hinv : LoopInv g s k st) (hu : mget st.QMapping u = some false)
    (hdu : mget st.dist u = some (some k))
    (harcs : ∀ v ∈ l, g.arcB u v = true) (hreach : Reach g s u)
    (hpr : PrevRank st) :
    PrevRank (l.foldl (relaxNeighbor O g u k) st) := by
  induction l generalizing st with
  | nil => exact hpr
  | cons v t ih =>
    rw [List.foldl_cons]
    obtain ⟨hinv', hfin', _⟩ :=
      inv_relax v O hw hinv hu hdu (harcs v (List.mem_cons_self ..)) hreach
    obtain ⟨hu', hdueq⟩ := hfin' u hu
    exact ih hinv' hu' (hdueq.trans hdu)
      (fun v' hv' => harcs v' (List.mem_cons_of_mem _ hv'))
      (relax_prevRank v O hw hinv hu hpr)

theorem loop_prevRank {g : WeightedGraph} {s : String} (O : Option ℤ)
    (t : Option String) (hw : NonnegWeights g) :
    ∀ (fuel : ℕ) {lb : ℤ} {st : DState}, LoopInv g s lb st → PrevRank st →
      PrevRank (dijkstraLoop g O t fuel st) := by
  intro fuel
  induction fuel with
  | zero => intro lb st _ hpr; exact hpr
  | succ fuel ih =>
    intro lb st hinv hpr
    cases hq : extractMin st.Q with
    | none =>
      rw [dijkstraLoop_succ_none g O t fuel st hq]
      exact hpr
    | some e =>
      obtain ⟨⟨k, u⟩, Q'⟩ := e
      rw [dijkstraLoop_succ_extract g O t fuel st k u Q' hq]
      obtain ⟨hinv1, hQMu, hdistu, _, _⟩ := inv_extract hinv hq
      have hpr1 : PrevRank { st with Q := Q', QMapping := mset st.QMapping u false } := hpr
      by_cases ht : t = some u
      · rw [if_pos ht]
        exact hpr1
      · rw [if_neg ht]
        have hQMu1 : mget (mset st.QMapping u false) u = some false :=
          mget_mset_self ..
        have hreachu : Reach g s u := hinv.seenReach u (by rw [hQMu]; simp)
        obtain ⟨hinv2, _, _⟩ :=
          inv_relax_fold ((mget g.adj u).getD []) O hw hinv1 hQMu1 hdistu
            (fun v hv => neighbors_arc hv) hreachu
        exact ih hinv2
          (fold_prevRank ((mget g.adj u).getD []) O hw hinv1 hQMu1 hdistu
            (fun v hv => neighbors_arc hv) hreachu hpr1)

/-! ### Path-weight of the reconstructed chain -/

theorem pathWeight_cons_cons (g : WeightedGraph) (a b : String)
    (rest : List String) :
    pathWeight g (a :: b :: rest) =
      match mget g.weights (wkey a b), pathWeight g (b :: rest) with
      | some w, some r => some (w + r)
      | _, _ => none := rfl

theorem pathWeight_append_last (g : WeightedGraph) :
    ∀ (c : List String) (x u : String), c ≠ [] → c.getLast? = some u →
      ∀ pc w : ℤ, pathWeight g c = some pc →
        mget g.weights (wkey u x) = some w →
        pathWeight g (c ++ [x]) = some (pc + w) := by
  intro c
  induction c with
  | nil => intro x u h; exact absurd rfl h
  | cons a t ih =>
    intro x u _ hlast pc w hp hw
    cases t with
    | nil =>
      simp only [List.getLast?_singleton, Option.some.injEq] at hlast
      subst hlast
      have h0 : (some (0 : ℤ) : Option ℤ) = some pc := hp
      injection h0 with h0
      show pathWeight g [a, x] = some (pc + w)
      rw [pathWeight_cons_cons, hw]
      show some (w + 0) = some (pc + w)
      refine congrArg some ?_
      omega
    | cons b t' =>
      rw [List.getLast?_cons_cons] at hlast
      rw [pathWeight_cons_cons] at hp
      cases hwab : mget g.weights (wkey a b) with
      | none => rw [hwab] at hp; cases hp
      | some wab =>
        cases hpt : pathWeight g (b :: t') with
        | none => rw [hwab, hpt] at hp; cases hp
        | some pt =>
          rw [hwab, hpt] at hp
          injection hp with hp
          have hih := ih x u (by simp) hlast pt w hpt hw
          show pathWeight g (a :: ((b :: t') ++ [x])) = some (pc + w)
          have : a :: ((b :: t') ++ [x]) = a :: b :: (t' ++ [x]) := rfl
          rw [this, pathWeight_cons_cons, hwab]
          have hih' : pathWeight g (b :: (t' ++ [x])) = some (pt + w) := hih
          rw [hih']
          refine congrArg some ?_
          omega

/-! ### The reconstruction chain of a finalized node -/

theorem trace_chain {g : WeightedGraph} {s : String} {lb : ℤ} {st : DState}
    (hinv : LoopInv g s lb st) (r : String → ℕ)
    (hr : ∀ x ux, mget st.prev x = some (some ux) → r ux < r x) :
    ∀ (n : ℕ) (x : String), r x ≤ n → mget st.QMapping x = some false →
      ∀ dx : ℤ, mget st.dist x = some (some dx) →
      ∃ c : List String, c ≠ [] ∧ c.getLast? = some x ∧ c.Nodup ∧
        (∀ y ∈ c, r y ≤ r x) ∧
        (∀ y ∈ c, (mget st.prev y).isSome = true ∨ y = s) ∧
        pathWeight g c = some dx ∧
        ∀ (fuel : ℕ) (acc : List String), c.length ≤ fuel →
          traceLoop st.prev fuel (some x) acc = c ++ acc := by
  intro n
  induction n with
  | zero =>
    intro x hxr hxfin dx hdx
    rcases hinv.seenPrev x (by rw [hxfin]; simp) with rfl | ⟨u, hu⟩
    · have hdx0 : dx = 0 := by
        have hds := hinv.distS
        rw [hdx] at hds
        simp only [Option.some.injEq] at hds
        omega
      subst hdx0
      refine ⟨[x], by simp, by simp, by simp, by simp, ?_, rfl, ?_⟩
      · intro y hy
        simp only [List.mem_singleton] at hy
        subst hy
        exact Or.inr rfl
      · intro fuel acc hfuel
        obtain ⟨f, rfl⟩ : ∃ f, fuel = f + 1 := ⟨fuel - 1, by simp at hfuel; omega⟩
        rw [traceLoop_some]
        have hj : (mget st.prev x).join = none := by
          rcases hinv.prevS with hp | hp <;> rw [hp] <;> rfl
        rw [hj, traceLoop_none]
        rfl
    · exact absurd (hr x u hu) (by omega)
  | succ n ih =>
    intro x hxr hxfin dx hdx
    rcases hinv.seenPrev x (by rw [hxfin]; simp) with rfl | ⟨u, hu⟩
    · have hdx0 : dx = 0 := by
        have hds := hinv.distS
        rw [hdx] at hds
        simp only [Option.some.injEq] at hds
        omega
      subst hdx0
      refine ⟨[x], by simp, by simp, by simp, by simp, ?_, rfl, ?_⟩
      · intro y hy
        simp only [List.mem_singleton] at hy
        subst hy
        exact Or.inr rfl
      · intro fuel acc hfuel
        obtain ⟨f, rfl⟩ : ∃ f, fuel = f + 1 := ⟨fuel - 1, by simp at hfuel; omega⟩
        rw [traceLoop_some]
        have hj : (mget st.prev x).join = none := by
          rcases hinv.prevS with hp | hp <;> rw [hp] <;> rfl
        rw [hj, traceLoop_none]
        rfl
    · obtain ⟨hQu, harcux, w, du, dvx, hwget, hdu, hdvx, heq⟩ :=
        hinv.prevInv x u hu
      have hdxeq : dvx = dx := by
        rw [hdx] at hdvx
        injection hdvx with hdvx
        injection hdvx with hdvx
        omega
      have hru : r u < r x := hr x u hu
      obtain ⟨c, hne, hlast, hnd, hrb, hks, hpw, htr⟩ :=
        ih u (by omega) hQu du hdu
      refine ⟨c ++ [x], by simp, ?_, ?_, ?_, ?_, ?_, ?_⟩
      · exact List.getLast?_concat _
      · rw [List.nodup_append]
        refine ⟨hnd, List.nodup_singleton x, ?_⟩
        intro a ha hax
        simp only [List.mem_singleton] at hax
        subst hax
        have := hrb a ha
        omega
      · intro y hy
        rcases List.mem_append.mp hy with hy | hy
        · have := hrb y hy
          omega
        · simp only [List.mem_singleton] at hy
          subst hy
          exact le_refl _
      · intro y hy
        rcases List.mem_append.mp hy with hy | hy
        · exact hks y hy
        · simp only [List.mem_singleton] at hy
          subst hy
          exact Or.inl (by rw [hu]; rfl)
      · have hap := pathWeight_append_last g c x u hne hlast du w hpw hwget
        rw [hap]
        congr 1
        omega
      · intro fuel acc hfuel
        rw [List.length_append] at hfuel
        obtain ⟨f, rfl⟩ : ∃ f, fuel = f + 1 := ⟨fuel - 1, by simp at hfuel; omega⟩
        rw [traceLoop_some]
        have hj : (mget st.prev x).join = some u := by rw [hu]; rfl
        rw [hj, htr f (x :: acc) (by simp at hfuel; omega)]
        rw [List.append_assoc]
        rfl

/-! ### Length bound on the chain -/

theorem chain_length_le (prev : List (String × Option String)) (s : String)
    (c : List String) (hnd : c.Nodup)
    (hks : ∀ y ∈ c, (mget prev y).isSome = true ∨ y = s) :
    c.length ≤ prev.length + 1 := by
  classical
  have hsub : c.toFinset ⊆ (prev.map Prod.fst).toFinset ∪ {s} := by
    intro y hy
    rw [List.mem_toFinset] at hy
    rcases hks y hy with hy' | rfl
    · exact Finset.mem_union.mpr (Or.inl (List.mem_toFinset.mpr
        (mget_isSome_mem_keys hy')))
    · exact Finset.mem_union.mpr (Or.inr (Finset.mem_singleton_self y))
  have h1 : c.length = c.toFinset.card := (List.toFinset_card_of_nodup hnd).symm
  have h2 : c.toFinset.card ≤ ((prev.map Prod.fst).toFinset ∪ {s}).card :=
    Finset.card_le_card hsub
  have h3 : ((prev.map Prod.fst).toFinset ∪ {s}).card ≤
      (prev.map Prod.fst).toFinset.card + 1 := by
    refine le_trans (Finset.card_union_le _ _) ?_
    simp
  have h4 : (prev.map Prod.fst).toFinset.card ≤ (prev.map Prod.fst).length :=
    List.toFinset_card_le _
  rw [List.length_map] at h4
  omega

/-! ### Entry conditions of `tracePath` -/

theorem tracePath_entry_some {prev : List (String × Option String)}
    {target u : String} (fuel : ℕ) (source : Option String)
    (h : mget prev target = some (some u)) :
    tracePath fuel prev target source = traceLoop prev fuel (some target) [] := by
  rw [tracePath.eq_def, h]
  rfl

theorem tracePath_entry_missing {prev : List (String × Option String)}
    {target : String} (fuel : ℕ) (source : Option String)
    (h : mget prev target = none) :
    tracePath fuel prev target source = traceLoop prev fuel (some target) [] := by
  rw [tracePath.eq_def, h]
  rfl

theorem tracePath_entry_source {prev : List (String × Option String)}
    {s : String} (fuel : ℕ) (h : mget prev s = some none) (hs : s ≠ "") :
    tracePath fuel prev s (some s) = traceLoop prev fuel (some s) [] := by
  rw [tracePath, h]
  simp [hs]

theorem tracePath_entry_falsy {prev : List (String × Option String)}
    {target : String} (fuel : ℕ) (h : mget prev target = some none) :
    tracePath fuel prev target (some "") = [] := by
  rw [tracePath, h]
  simp

/-- **C7.**  For every weighted graph with non-negative weights (every arc
carries a stored weight, and each stored weight is `≥ 0`), every source `s`
and every node `v` reachable from `s`, the distance the full search
`Dijkstra(G, [s])` records for `v` is finite and equals the sum of the arc
weights along the path returned by the early-exiting single-target search
`Dijkstra(G, [s, v])`. -/
theorem full_distance_eq_path_weight (g : WeightedGraph) (s v : String)
    (hw : NonnegWeights g)
    (hwa : ∀ u x, g.arcB u x = true → (mget g.weights (wkey u x)).isSome = true)
    (hr : Reach g s v) :
    ∃ q : ℤ, mget (DijkstraFull g s none).1 v = some (some q) ∧
      pathWeight g (DijkstraPath g s v none) = some q := by
  obtain ⟨lbF, -, hinvF, -, -⟩ :=
    inv_loop none none hw (dijkstraFuel g) (inv_init g s)
  have hrelF :=
    relaxedInv_loop hw (dijkstraFuel g) (inv_init g s) (relaxedInv_init g s)
  have hempty := fuel_suffices g s hw
  have hfinF :
      mget (dijkstraLoop g none none (dijkstraFuel g) (initState g s)).QMapping v
        = some false :=
    reached_finalized hinvF hrelF hwa hempty v hr
  obtain ⟨q, hqF, -⟩ := hinvF.finalized v hfinF
  have hne0 : mget (initState g s).QMapping v ≠ some false := by
    rw [initState_QMapping]
    by_cases hsv : s = v
    · simp [mget, hsv]
    · simp [mget, hsv, Ne.symm hsv]
  obtain ⟨lbT, hinvT, hfinT, hdT⟩ :=
    loop_target_corr hw (dijkstraFuel g) (inv_init g s) hne0 hfinF
  have hqT :
      mget (dijkstraLoop g none (some v) (dijkstraFuel g) (initState g s)).dist v
        = some (some q) := by
    rw [hdT]; exact hqF
  obtain ⟨r, hrk⟩ :=
    loop_prevRank none (some v) hw (dijkstraFuel g) (inv_init g s)
      (prevRank_init g s)
  obtain ⟨c, hcne, hclast, hcnd, -, hcks, hcpw, hctr⟩ :=
    trace_chain hinvT r hrk (r v) v (le_refl _) hfinT q hqT
  have hclen :=
    chain_length_le
      (dijkstraLoop g none (some v) (dijkstraFuel g) (initState g s)).prev s c
      hcnd hcks
  refine ⟨q, hqF, ?_⟩
  show pathWeight g
      (tracePath
        ((dijkstraLoop g none (some v) (dijkstraFuel g) (initState g s)).prev.length + 1)
        (dijkstraLoop g none (some v) (dijkstraFuel g) (initState g s)).prev v
        (some s)) = some q
  rcases hinvT.seenPrev v (by rw [hfinT]; simp) with hvs | ⟨u, hu⟩
  · subst hvs
    have hq0 : q = 0 := by
      have hds := hinvT.distS
      rw [hqT] at hds
      simp only [Option.some.injEq] at hds
      omega
    rcases hinvT.prevS with hp | hp
    · rw [tracePath_entry_missing _ _ hp]
      rw [hctr _ [] (by omega)]
      rw [List.append_nil]
      exact hcpw
    · by_cases hs0 : v = ""
      · subst hs0
        rw [tracePath_entry_falsy _ hp]
        rw [hq0]
        rfl
      · rw [tracePath_entry_source _ hp hs0]
        rw [hctr _ [] (by omega)]
        rw [List.append_nil]
        exact hcpw
  · rw [tracePath_entry_some _ _ hu]
    rw [hctr _ [] (by omega)]
    rw [List.append_nil]
    exact hcpw

/-- C7 witness: on the concrete scenario graph A→B(1), B→C(2), A→C(5), with
source A and reachable target C, the theorem applies. -/
theorem full_distance_eq_path_weight_witness :
    NonnegWeights gABC ∧
    (∀ u x, gABC.arcB u x = true →
      (mget gABC.weights (wkey u x)).isSome = true) ∧
    Reach gABC "A" "C" ∧
    ∃ q : ℤ, mget (DijkstraFull gABC "A" none).1 "C" = some (some q) ∧
      pathWeight gABC (DijkstraPath gABC "A" "C" none) = some q := by
  have hw : NonnegWeights gABC := by
    show ∀ p ∈ gABC.weights, (0 : ℤ) ≤ p.2
    decide
  have hwa : ∀ u x, gABC.arcB u x = true →
      (mget gABC.weights (wkey u x)).isSome = true := by
    intro u x hux
    obtain ⟨p, hp, hpu, hx⟩ := aArc_mem (show aArc gABC.adj u x = true from hux)
    rw [gABC_adj_eval] at hp
    simp only [List.mem_cons, List.not_mem_nil, or_false] at hp
    rcases hp with h1 | h1 | h1
    · subst h1
      subst hpu
      simp at hx
      rcases hx with rfl | rfl
      · decide
      · decide
    · subst h1
      subst hpu
      simp at hx
      subst hx
      decide
    · subst h1
      simp at hx
  have hr : Reach gABC "A" "C" := Reach.step Reach.refl (by decide)
  exact ⟨hw, hwa, hr, full_distance_eq_path_weight gABC "A" "C" hw hwa hr⟩
